import Mathlib

/-!
# Configuration manager of libipcam_base (`src/config_manager.c`)

A shallow embedding of the YAML-to-hash-table configuration loader and of its
accessors, followed by theorems about them.

Conventions of the embedding:

* a C string is the list of its characters (`Str`); a `gchar *` that may be `NULL`
  is an `Option Str`. The names given to the accessors and the labels of the tree are
  strings: a `NULL` name is outside the domain of `sprintf`;
* the key buffers hold `PATH_MAX` bytes: a `sprintf` or `strcat` whose result with its
  terminator does not fit overruns the buffer, and the call that does it answers
  `none`, as does a call that reads past the end of a string;
* a `GHashTable` with string keys is an association list; the order of the list
  stands for the (unspecified) order in which `g_hash_table_foreach` visits the
  entries;
* a `GNode` tree is an ordered rose tree, and a `GNode *` into it is the chain of
  child positions from the node up to the root (`NodePtr`), so that taking
  `node->parent` is taking the tail of the chain;
* the libyaml parser is the list of events it has still to deliver; once the
  list is exhausted `yaml_parser_parse` keeps answering `YAML_NO_EVENT`;
* a function whose C loop may spin forever takes a fuel argument and answers
  `none` when the fuel is used up; so `none` as the result of a call says that the call
  never returns or that its behaviour is undefined.
-/

namespace IpcamConfig

/-! ## Strings and hash tables -/

/-- A C string, without its terminator. -/
abbrev Str := List Char

/-- The constant `PATH_MAX`, the size of the two key buffers. The source takes it from the
system headers, which are not part of the repository; 4096 is its value on Linux. -/
def PATH_MAX : Nat := 4096

/-- A `GHashTable` with string keys; a value is a `gchar *`, `none` when it is `NULL`. -/
abbrev GHashTable := List (Str × Option Str)

/-- The call `g_hash_table_lookup`: the value bound to `key`; `NULL` (`none`) when the key
is not in the table, and also when it is bound to `NULL`. -/
def g_hash_table_lookup : GHashTable → Str → Option Str
  | [], _ => none
  | (k, v) :: t, key => if k = key then v else g_hash_table_lookup t key

/-- The call `g_hash_table_contains`: whether the key is in the table. -/
def g_hash_table_contains : GHashTable → Str → Bool
  | [], _ => false
  | (k, _) :: t, key => if k = key then true else g_hash_table_contains t key

/-- The call `g_hash_table_insert`: an existing binding of `key` gets the new value,
otherwise a new entry is added (at the end of the list; where a table would visit it is
not specified). -/
def g_hash_table_insert : GHashTable → Str → Option Str → GHashTable
  | [], key, value => [(key, value)]
  | (k, v) :: t, key, value =>
    if k = key then (k, value) :: t else (k, v) :: g_hash_table_insert t key value

/-- The call `g_hash_table_remove_all`. -/
def g_hash_table_remove_all (_h : GHashTable) : GHashTable := []

/-- The call `g_hash_table_foreach` with a callback that threads a state `σ` and may
hit undefined behaviour (`none`). -/
def g_hash_table_foreach {σ : Type} (h : GHashTable)
    (func : Str → Option Str → σ → Option σ)
    (user_data : σ) : Option σ :=
  match h with
  | [] => some user_data
  | (k, v) :: t =>
    match func k v user_data with
    | none => none
    | some user_data => g_hash_table_foreach t func user_data

/-- The call `g_str_has_prefix str pre`. -/
def g_str_has_prefix (str pre : Str) : Bool := pre.isPrefixOf str

/-- Every key occurs once: the representation invariant of a hash table. -/
def GHashTable.WF (h : GHashTable) : Prop := (h.map Prod.fst).Nodup

instance (h : GHashTable) : Decidable h.WF := inferInstanceAs (Decidable (List.Nodup _))

/-! ## Trees of `GNode` -/

/-- A node with its label and its children, first child first. -/
inductive GNode where
  | mk (data : Str) (children : List GNode)

/-- The field `node->data`. -/
def GNode.data : GNode → Str
  | .mk d _ => d

/-- The children of a node, in order. -/
def GNode.children : GNode → List GNode
  | .mk _ cs => cs

/-- A pointer to a node of a tree: the position of the node among the children of its
parent, then the pointer to the parent; the root is `[]`. -/
abbrev NodePtr := List Nat

/-- The call `g_node_new`. -/
def g_node_new (data : Str) : GNode := .mk data []

/-- The node found by going down from `n` along child positions, root side first. -/
def GNode.descend : GNode → List Nat → Option GNode
  | n, [] => some n
  | .mk _ cs, i :: path =>
    match cs[i]? with
    | some c => c.descend path
    | none => none

/-- Dereference a pointer into the tree `root`. -/
def GNode.deref (root : GNode) (p : NodePtr) : Option GNode := root.descend p.reverse

/-- The label `p->data` of the node `p` of `root` (empty for a dangling pointer). -/
def node_data (root : GNode) (p : NodePtr) : Str :=
  match root.deref p with
  | some n => n.data
  | none => []

/-- The call `g_node_n_children`. -/
def g_node_n_children (root : GNode) (p : NodePtr) : Nat :=
  match root.deref p with
  | some n => n.children.length
  | none => 0

/-- Hang `x` as the last child of the node reached from `n` along `path`. -/
def GNode.appendAt : GNode → List Nat → GNode → GNode
  | .mk d cs, [], x => .mk d (cs ++ [x])
  | .mk d cs, i :: path, x => .mk d (cs.modify (fun c => c.appendAt path x) i)

/-- The call `g_node_append_data parent data`: a new childless node becomes the last
child of `parent`; the result is the updated tree and the pointer to the new node. -/
def g_node_append_data (root : GNode) (parent : NodePtr) (data : Str) : GNode × NodePtr :=
  (root.appendAt parent.reverse (.mk data []), g_node_n_children root parent :: parent)

/-- The call `g_node_depth`: the root has depth 1. -/
def g_node_depth (p : NodePtr) : Nat := p.length + 1

mutual
/-- The leaves below (and including) the node `p`, in pre-order. -/
def traverse_leaves : GNode → NodePtr → List NodePtr
  | .mk _ [], p => [p]
  | .mk _ (c :: cs), p => traverse_children (c :: cs) p 0
/-- The leaves below the children `cs` of `p`, the first of which has position `i`. -/
def traverse_children : List GNode → NodePtr → Nat → List NodePtr
  | [], _, _ => []
  | c :: cs, p, i => traverse_leaves c (i :: p) ++ traverse_children cs p (i + 1)
end

/-- The nodes visited by `g_node_traverse root G_PRE_ORDER G_TRAVERSE_LEAVES -1`. -/
def g_node_traverse_leaves (root : GNode) : List NodePtr := traverse_leaves root []

/-! ## The parser -/

/-- A libyaml event; only a scalar event carries data that the code reads. -/
inductive yaml_event_t where
  | YAML_NO_EVENT
  | YAML_STREAM_START_EVENT
  | YAML_STREAM_END_EVENT
  | YAML_DOCUMENT_START_EVENT
  | YAML_DOCUMENT_END_EVENT
  | YAML_ALIAS_EVENT
  | YAML_SCALAR_EVENT (value : Str)
  | YAML_SEQUENCE_START_EVENT
  | YAML_SEQUENCE_END_EVENT
  | YAML_MAPPING_START_EVENT
  | YAML_MAPPING_END_EVENT
  deriving DecidableEq

open yaml_event_t

/-- The parser: the events it has still to deliver. -/
abbrev yaml_parser_t := List yaml_event_t

/-- The call `yaml_parser_parse`: the next event and the advanced parser. -/
def yaml_parser_parse : yaml_parser_t → yaml_event_t × yaml_parser_t
  | [] => (YAML_NO_EVENT, [])
  | e :: rest => (e, rest)

/-! ## The tree builder -/

/-- The enumerator `VAR` of `enum storage_flags`. -/
def VAR : Nat := 0
/-- The enumerator `VAL` of `enum storage_flags`. -/
def VAL : Nat := 1
/-- The enumerator `SEQ` of `enum storage_flags`. -/
def SEQ : Nat := 2

/-- The `do ... while` loop of `process_layer`, with the locals `last_leaf` and `storage`
as arguments; the tree is passed along and returned with the advanced parser. -/
def process_layer_loop : Nat → yaml_parser_t → GNode → NodePtr → NodePtr → Nat →
    Option (yaml_parser_t × GNode)
  | 0, _, _, _, _, _ => none
  | fuel + 1, parser, root, data, last_leaf, storage =>
    match yaml_parser_parse parser with
    | (YAML_SCALAR_EVENT value, parser) =>
      if storage ≠ VAR then
        let r := g_node_append_data root last_leaf value
        process_layer_loop fuel parser r.1 data r.2 (storage ^^^ VAL)
      else
        let r := g_node_append_data root data value
        process_layer_loop fuel parser r.1 data r.2 (storage ^^^ VAL)
    | (YAML_SEQUENCE_START_EVENT, parser) =>
      process_layer_loop fuel parser root data last_leaf SEQ
    | (YAML_SEQUENCE_END_EVENT, parser) =>
      process_layer_loop fuel parser root data last_leaf VAR
    | (YAML_MAPPING_START_EVENT, parser) =>
      match process_layer_loop fuel parser root last_leaf last_leaf VAR with
      | none => none
      | some (parser, root) =>
        process_layer_loop fuel parser root data last_leaf (storage ^^^ VAL)
    | (YAML_MAPPING_END_EVENT, parser) => some (parser, root)
    | (YAML_STREAM_END_EVENT, parser) => some (parser, root)
    | (_, parser) => process_layer_loop fuel parser root data last_leaf storage

/-- The function `process_layer parser data`. -/
def process_layer (fuel : Nat) (parser : yaml_parser_t) (root : GNode) (data : NodePtr) :
    Option (yaml_parser_t × GNode) :=
  process_layer_loop fuel parser root data data VAR

/-! ## The manager -/

/-- The private data of the manager. -/
structure IpcamConfigManagerPrivate where
  key : Str
  conf_hash : GHashTable
  collection : GHashTable
  deriving DecidableEq

/-- The function `ipcam_config_manager_init`: two empty tables. -/
def ipcam_config_manager_init : IpcamConfigManagerPrivate := ⟨[], [], []⟩

/-- The `while (tmp)` loop of `to_hash`: the labels of the ancestors of `node`, the
parent first, the root last. -/
def to_hash_array (root : GNode) : NodePtr → List Str
  | [] => []
  | _ :: parent => node_data root parent :: to_hash_array root parent

/-- The call `strcat(key, src)` on the buffer `gchar key[PATH_MAX]` of `to_hash`: the
buffer is overrun (`none`) when the joined string and its terminator do not fit. -/
def strcat (key src : Str) : Option Str :=
  if (key ++ src).length < PATH_MAX then some (key ++ src) else none

/-- The `for (j = i - 1; j >= 0; j--)` loop of `to_hash`; the first argument is `j + 1`. -/
def to_hash_key (array : List Str) : Nat → Str → Option Str
  | 0, key => some key
  | j + 1, key =>
    match strcat key (array.getD j []) with
    | none => none
    | some key =>
      if j ≥ 1 then
        match strcat key [':'] with
        | none => none
        | some key => to_hash_key array j key
      else
        to_hash_key array j key

/-- The callback `to_hash node priv`; `none` when the key overruns the buffer. -/
def to_hash (root : GNode) (node : NodePtr) (priv : IpcamConfigManagerPrivate) :
    Option IpcamConfigManagerPrivate :=
  let i := g_node_depth node - 1
  let array := to_hash_array root node
  match to_hash_key array i [] with
  | none => none
  | some key =>
    some ⟨priv.key, g_hash_table_insert priv.conf_hash key (some (node_data root node)),
      priv.collection⟩

/-- The calls of `to_hash` that `g_node_traverse` makes for the visited nodes, in order. -/
def traverse_to_hash (root : GNode) : List NodePtr → IpcamConfigManagerPrivate →
    Option IpcamConfigManagerPrivate
  | [], priv => some priv
  | node :: rest, priv =>
    match to_hash root node priv with
    | none => none
    | some priv => traverse_to_hash root rest priv

/-- The function `ipcam_config_manager_load_config`. The file is `none` when `fopen`
fails and otherwise the events that libyaml reads from it. The result is `none`
when the builder does not return or a key overruns the buffer of `to_hash`; the fuel
given to the builder, one more than the number of events, is never the reason for it
(`loop_fuel_adequate`). -/
def ipcam_config_manager_load_config (priv : IpcamConfigManagerPrivate)
    (file : Option yaml_parser_t) : Option (Bool × IpcamConfigManagerPrivate) :=
  let cfg := g_node_new "config".toList
  match file with
  | some source =>
    match process_layer (source.length + 1) source cfg [] with
    | none => none
    | some (_, cfg) =>
      match traverse_to_hash cfg (g_node_traverse_leaves cfg) priv with
      | none => none
      | some priv => some (true, priv)
  | none => some (false, priv)

/-- The string `config:` followed by the name. -/
def config_key (conf_name : Str) : Str := "config:".toList ++ conf_name

/-- The call `sprintf(priv->key, "config:%s", conf_name)` on the buffer
`gchar key[PATH_MAX]`: the string written to the key; the buffer is overrun (`none`)
when the string and its terminator do not fit. -/
def sprintf_config (conf_name : Str) : Option Str :=
  if (config_key conf_name).length < PATH_MAX then some (config_key conf_name) else none

/-- The function `ipcam_config_manager_merge`; the value may be `NULL`, which `g_strdup`
hands on. -/
def ipcam_config_manager_merge (priv : IpcamConfigManagerPrivate) (conf_name : Str)
    (conf_value : Option Str) : Option IpcamConfigManagerPrivate :=
  match sprintf_config conf_name with
  | none => none
  | some key =>
    if ¬ g_hash_table_contains priv.conf_hash key then
      some ⟨key, g_hash_table_insert priv.conf_hash key conf_value, priv.collection⟩
    else
      some ⟨key, priv.conf_hash, priv.collection⟩

/-- The function `ipcam_config_manager_get`: the returned pointer and the manager, whose
scratch key has been overwritten. -/
def ipcam_config_manager_get (priv : IpcamConfigManagerPrivate) (conf_name : Str) :
    Option (Option Str × IpcamConfigManagerPrivate) :=
  match sprintf_config conf_name with
  | none => none
  | some key =>
    some (g_hash_table_lookup priv.conf_hash key, ⟨key, priv.conf_hash, priv.collection⟩)

/-- The callback `generate_collection key value priv`, on the collection table. The
pointer `key + strlen(priv->key) + 1` lies inside the string `key` only when `key` is
longer than the prefix; otherwise the read is out of bounds (`none`). -/
def generate_collection (prefix_key : Str) (key : Str) (value : Option Str)
    (collection : GHashTable) : Option GHashTable :=
  if g_str_has_prefix key prefix_key then
    if prefix_key.length < key.length then
      some (g_hash_table_insert collection (key.drop (prefix_key.length + 1)) value)
    else
      none
  else
    some collection

/-- The function `ipcam_config_manager_get_collection`: the manager after the call, whose
`collection` field is the returned table; `none` when the key overran its buffer or a
callback read out of bounds. -/
def ipcam_config_manager_get_collection (priv : IpcamConfigManagerPrivate) (conf_name : Str) :
    Option IpcamConfigManagerPrivate :=
  match sprintf_config conf_name with
  | none => none
  | some key =>
    let collection := g_hash_table_remove_all priv.collection
    match g_hash_table_foreach priv.conf_hash (generate_collection key) collection with
    | none => none
    | some collection => some ⟨key, priv.conf_hash, collection⟩

/-! ## Example inputs -/

/-- The events of the document `{a: {b: "1", c: "2"}}`. -/
def events_a_b_c : yaml_parser_t :=
  [YAML_STREAM_START_EVENT, YAML_DOCUMENT_START_EVENT, YAML_MAPPING_START_EVENT,
   YAML_SCALAR_EVENT "a".toList, YAML_MAPPING_START_EVENT,
   YAML_SCALAR_EVENT "b".toList, YAML_SCALAR_EVENT "1".toList,
   YAML_SCALAR_EVENT "c".toList, YAML_SCALAR_EVENT "2".toList,
   YAML_MAPPING_END_EVENT, YAML_MAPPING_END_EVENT,
   YAML_DOCUMENT_END_EVENT, YAML_STREAM_END_EVENT]

/-- The events of the document `{a: {list: ["x", "y", "z"]}}`. -/
def events_a_list : yaml_parser_t :=
  [YAML_STREAM_START_EVENT, YAML_DOCUMENT_START_EVENT, YAML_MAPPING_START_EVENT,
   YAML_SCALAR_EVENT "a".toList, YAML_MAPPING_START_EVENT,
   YAML_SCALAR_EVENT "list".toList, YAML_SEQUENCE_START_EVENT,
   YAML_SCALAR_EVENT "x".toList, YAML_SCALAR_EVENT "y".toList, YAML_SCALAR_EVENT "z".toList,
   YAML_SEQUENCE_END_EVENT,
   YAML_MAPPING_END_EVENT, YAML_MAPPING_END_EVENT,
   YAML_DOCUMENT_END_EVENT, YAML_STREAM_END_EVENT]

/-- The events of a document that is the single scalar `hello`. -/
def events_scalar_document : yaml_parser_t :=
  [YAML_STREAM_START_EVENT, YAML_DOCUMENT_START_EVENT, YAML_SCALAR_EVENT "hello".toList,
   YAML_DOCUMENT_END_EVENT, YAML_STREAM_END_EVENT]

/-- A store holding the three interface entries of the collection example. -/
def priv_net : IpcamConfigManagerPrivate :=
  ⟨[], [("config:net:eth0:ip".toList, some "10.0.0.1".toList),
        ("config:net:eth0:mask".toList, some "255.255.255.0".toList),
        ("config:net:eth1:ip".toList, some "10.0.0.2".toList)], []⟩

/-- A name of 4089 characters: with `config:` before it and the terminator after it, it
needs one byte more than a key buffer has. -/
def long_name : Str := List.replicate 4089 'a'

/-- A scalar of 4096 characters. -/
def long_label : Str := List.replicate 4096 'a'

/-! ## Views used to state the theorems -/

/-- An event is skipped when the `switch` has no case for it and it does not end the loop. -/
def ignored_event (e : yaml_event_t) : Prop :=
  e = YAML_NO_EVENT ∨ e = YAML_STREAM_START_EVENT ∨ e = YAML_DOCUMENT_START_EVENT ∨
    e = YAML_DOCUMENT_END_EVENT ∨ e = YAML_ALIAS_EVENT

/-- The strings of a list joined with `:` between neighbours. -/
def colon_join : List Str → Str
  | [] => []
  | [a] => a
  | a :: b :: rest => a ++ ':' :: colon_join (b :: rest)

/-- The pair that `to_hash` inserts for the node `node` when the key fits its buffer: the
labels of the ancestors, the root first, joined with `:`, and the label of the node. -/
def to_hash_entry (root : GNode) (node : NodePtr) : Str × Str :=
  (colon_join (to_hash_array root node).reverse, node_data root node)

/-- The pairs inserted by the leaf traversal of `load_config`, in the order of insertion. -/
def flatten_entries (root : GNode) : List (Str × Str) :=
  (g_node_traverse_leaves root).map (to_hash_entry root)

/-- Insert a list of pairs, whose values may be `NULL`, one after the other. -/
def insert_pairs (h : GHashTable) (entries : List (Str × Option Str)) : GHashTable :=
  entries.foldl (fun h e => g_hash_table_insert h e.1 e.2) h

/-- Insert a list of pairs of strings one after the other. -/
def insert_all (h : GHashTable) (entries : List (Str × Str)) : GHashTable :=
  insert_pairs h (entries.map (fun e => (e.1, some e.2)))

/-- Hang the nodes `xs` after the last child of the node reached from `n` along `path`. -/
def GNode.graftAt : GNode → List Nat → List GNode → GNode
  | .mk d cs, [], xs => .mk d (cs ++ xs)
  | .mk d cs, i :: path, xs => .mk d (cs.modify (fun c => c.graftAt path xs) i)

mutual
/-- The leaves below a node, each with the labels of its ancestors (the parent first) and
its own label, when `anc` are the labels of the ancestors of the node itself. -/
def flat_node : List Str → GNode → List (List Str × Str)
  | anc, .mk d [] => [(anc, d)]
  | anc, .mk d (c :: cs) => flat_children (d :: anc) (c :: cs)
/-- The leaves below a list of siblings whose ancestors are labelled `anc`. -/
def flat_children : List Str → List GNode → List (List Str × Str)
  | _, [] => []
  | anc, c :: cs => flat_node anc c ++ flat_children anc cs
end

/-- The entries of a mapping whose values are scalars or again such mappings. -/
inductive Mapping where
  | nil
  | scalar (key value : Str) (rest : Mapping)
  | nested (key : Str) (body : Mapping) (rest : Mapping)

/-- The events that libyaml delivers for the entries of a mapping, between its
mapping-start and its mapping-end. -/
def Mapping.events : Mapping → yaml_parser_t
  | .nil => []
  | .scalar k v rest => YAML_SCALAR_EVENT k :: YAML_SCALAR_EVENT v :: rest.events
  | .nested k body rest =>
    YAML_SCALAR_EVENT k :: YAML_MAPPING_START_EVENT ::
      (body.events ++ YAML_MAPPING_END_EVENT :: rest.events)

/-- The event stream of the document whose top-level mapping is `m`. -/
def Mapping.document_events (m : Mapping) : yaml_parser_t :=
  YAML_STREAM_START_EVENT :: YAML_DOCUMENT_START_EVENT :: YAML_MAPPING_START_EVENT ::
    (m.events ++ [YAML_MAPPING_END_EVENT, YAML_DOCUMENT_END_EVENT, YAML_STREAM_END_EVENT])

/-- The scalar leaves of a mapping in document order, each with its key path. -/
def Mapping.leaves : Mapping → List (List Str × Str)
  | .nil => []
  | .scalar k v rest => ([k], v) :: rest.leaves
  | .nested k body rest => body.leaves.map (fun l => (k :: l.1, l.2)) ++ rest.leaves

/-- Whether a mapping has no entry. -/
def Mapping.is_empty : Mapping → Bool
  | .nil => true
  | _ => false

/-- Every value is a scalar or a mapping that has entries, so that every branch of the
document ends in a scalar. -/
def Mapping.scalar_leaved : Mapping → Bool
  | .nil => true
  | .scalar _ _ rest => rest.scalar_leaved
  | .nested _ body rest => !body.is_empty && body.scalar_leaved && rest.scalar_leaved

/-- The nodes that stand for the entries of a mapping: a key node over one leaf for a
scalar value, a key node over the nodes of the nested mapping otherwise. -/
def Mapping.nodes : Mapping → List GNode
  | .nil => []
  | .scalar k v rest => .mk k [.mk v []] :: rest.nodes
  | .nested k body rest => .mk k body.nodes :: rest.nodes

/-- The document `{a: {b: "1", c: "2"}}`. -/
def mapping_a_b_c : Mapping :=
  .nested "a".toList (.scalar "b".toList "1".toList (.scalar "c".toList "2".toList .nil)) .nil

/-- The tree that the builder makes of `{a: {b: "1", c: "2"}}`. -/
def tree_a_b_c : GNode :=
  .mk "config".toList [.mk "a".toList
    [.mk "b".toList [.mk "1".toList []], .mk "c".toList [.mk "2".toList []]]]

/-- The managers that are reached from the initial one by merges and successful loads. -/
inductive Reachable : IpcamConfigManagerPrivate → Prop where
  | init : Reachable ipcam_config_manager_init
  | merge (priv priv' : IpcamConfigManagerPrivate) (conf_name : Str)
      (conf_value : Option Str) :
      Reachable priv →
      ipcam_config_manager_merge priv conf_name conf_value = some priv' →
      Reachable priv'
  | load (priv priv' : IpcamConfigManagerPrivate) (source : yaml_parser_t) :
      Reachable priv →
      ipcam_config_manager_load_config priv (some source) = some (true, priv') →
      Reachable priv'

/-! ## Views of layers, sequences and collections -/

/-- The events of the document `{a: "1", a: "2"}`, in which the key `a` occurs twice. -/
def events_a_a : yaml_parser_t :=
  [YAML_STREAM_START_EVENT, YAML_DOCUMENT_START_EVENT, YAML_MAPPING_START_EVENT,
   YAML_SCALAR_EVENT "a".toList, YAML_SCALAR_EVENT "1".toList,
   YAML_SCALAR_EVENT "a".toList, YAML_SCALAR_EVENT "2".toList,
   YAML_MAPPING_END_EVENT, YAML_DOCUMENT_END_EVENT, YAML_STREAM_END_EVENT]

/-- The tree that the builder makes of `{a: "1", a: "2"}`. -/
def tree_a_a : GNode :=
  .mk "config".toList [.mk "a".toList [.mk "1".toList []], .mk "a".toList [.mk "2".toList []]]

/-- The entries that `get_collection` takes out of a table for the prefix `pre`: those
whose key has the prefix, under the key without the prefix and the character after it. -/
def collection_entries (pre : Str) (h : GHashTable) : List (Str × Option Str) :=
  h.filterMap (fun e => if g_str_has_prefix e.1 pre then some (e.1.drop (pre.length + 1), e.2)
    else none)

/-- The events of a run of scalar pairs, a key and then its value. -/
def pair_events : List (Str × Str) → yaml_parser_t
  | [] => []
  | kv :: rest => YAML_SCALAR_EVENT kv.1 :: YAML_SCALAR_EVENT kv.2 :: pair_events rest

/-- The node of a key with a scalar value: the key over one leaf. -/
def pair_node (kv : Str × Str) : GNode := .mk kv.1 [.mk kv.2 []]

/-- Event sequences without stream-end in which every mapping-start is closed by a
mapping-end of its own and every mapping-end closes a mapping-start. -/
inductive Balanced : yaml_parser_t → Prop where
  | nil : Balanced []
  | skip (e : yaml_event_t) (es : yaml_parser_t) :
      e ≠ YAML_MAPPING_START_EVENT → e ≠ YAML_MAPPING_END_EVENT →
      e ≠ YAML_STREAM_END_EVENT → Balanced es → Balanced (e :: es)
  | nest (body es : yaml_parser_t) :
      Balanced body → Balanced es →
      Balanced (YAML_MAPPING_START_EVENT :: (body ++ YAML_MAPPING_END_EVENT :: es))

/-- An element read between a sequence-start and its sequence-end: a scalar or a
mapping. -/
inductive SeqItem where
  | scalar (value : Str)
  | mapping (body : Mapping)

/-- The events of a run of sequence elements. -/
def seq_events : List SeqItem → yaml_parser_t
  | [] => []
  | .scalar v :: rest => YAML_SCALAR_EVENT v :: seq_events rest
  | .mapping m :: rest =>
    YAML_MAPPING_START_EVENT :: (m.events ++ YAML_MAPPING_END_EVENT :: seq_events rest)

/-- The tree and the `last_leaf` after a run of sequence elements when every scalar is
appended below `last_leaf`, which then moves to it, and the entries of every mapping are
hung below `last_leaf`, which stays. -/
def seq_result (root : GNode) (last_leaf : NodePtr) : List SeqItem → GNode × NodePtr
  | [] => (root, last_leaf)
  | .scalar v :: rest =>
    seq_result (g_node_append_data root last_leaf v).1 (g_node_append_data root last_leaf v).2
      rest
  | .mapping m :: rest => seq_result (root.graftAt last_leaf.reverse m.nodes) last_leaf rest

/-- The value of `storage` after a run of sequence elements: one flip per element. -/
def seq_storage (storage : Nat) : List SeqItem → Nat
  | [] => storage
  | _ :: rest => seq_storage (storage ^^^ VAL) rest

/-- The children of a key whose value is the sequence `xs` when the elements are chained:
the only child is the first element, over the chain of the others. -/
def seq_chain : List Str → List GNode
  | [] => []
  | x :: xs => [.mk x (seq_chain xs)]

/-- The events of the document whose one key is a scalar of 4096 characters, with the
value `v`. -/
def events_long_key : yaml_parser_t :=
  [YAML_STREAM_START_EVENT, YAML_DOCUMENT_START_EVENT, YAML_MAPPING_START_EVENT,
   YAML_SCALAR_EVENT long_label, YAML_SCALAR_EVENT "v".toList,
   YAML_MAPPING_END_EVENT, YAML_DOCUMENT_END_EVENT, YAML_STREAM_END_EVENT]

/-- The tree that the builder makes of `events_long_key`. -/
def tree_long_key : GNode := .mk "config".toList [.mk long_label [.mk "v".toList []]]

/-- The events of a document that breaks off after the key `a` of its mapping, as libyaml
delivers them when the rest of the file cannot be parsed. -/
def events_broken_off : yaml_parser_t :=
  [YAML_STREAM_START_EVENT, YAML_DOCUMENT_START_EVENT, YAML_MAPPING_START_EVENT,
   YAML_SCALAR_EVENT "a".toList]

/-! # Theorems -/

/-! ## Hash table lemmas -/

theorem lookup_insert_self (h : GHashTable) (k : Str) (v : Option Str) :
    g_hash_table_lookup (g_hash_table_insert h k v) k = v := by
  induction h with
  | nil => simp [g_hash_table_insert, g_hash_table_lookup]
  | cons e t ih =>
    obtain ⟨k', v'⟩ := e
    by_cases hk : k' = k
    · simp [g_hash_table_insert, g_hash_table_lookup, hk]
    · simp [g_hash_table_insert, g_hash_table_lookup, hk, ih]

theorem lookup_insert_ne (h : GHashTable) (k : Str) (v : Option Str) (k' : Str)
    (hne : k ≠ k') :
    g_hash_table_lookup (g_hash_table_insert h k v) k' = g_hash_table_lookup h k' := by
  induction h with
  | nil => simp [g_hash_table_insert, g_hash_table_lookup, hne]
  | cons e t ih =>
    obtain ⟨k0, v0⟩ := e
    by_cases hk : k0 = k
    · subst hk
      simp [g_hash_table_insert, g_hash_table_lookup, hne]
    · by_cases hk' : k0 = k'
      · subst hk'
        simp [g_hash_table_insert, g_hash_table_lookup, hk]
      · simp [g_hash_table_insert, g_hash_table_lookup, hk, hk', ih]

theorem contains_iff_mem_keys (h : GHashTable) (k : Str) :
    g_hash_table_contains h k = true ↔ k ∈ h.map Prod.fst := by
  induction h with
  | nil => simp [g_hash_table_contains]
  | cons e t ih =>
    obtain ⟨k0, v0⟩ := e
    by_cases hk : k0 = k
    · simp [g_hash_table_contains, hk]
    · have hk' : ¬ k = k0 := fun hh => hk hh.symm
      simp [g_hash_table_contains, hk, hk', ih]

theorem lookup_of_not_mem_keys (h : GHashTable) (k : Str) (hk : k ∉ h.map Prod.fst) :
    g_hash_table_lookup h k = none := by
  induction h with
  | nil => rfl
  | cons e t ih =>
    obtain ⟨k0, v0⟩ := e
    simp only [List.map_cons, List.mem_cons, not_or] at hk
    have hne : ¬ k0 = k := fun hh => hk.1 hh.symm
    simp only [g_hash_table_lookup, hne, if_false]
    exact ih hk.2

theorem mem_of_lookup_eq_some (h : GHashTable) (k v : Str)
    (hl : g_hash_table_lookup h k = some v) : (k, some v) ∈ h := by
  induction h with
  | nil => simp [g_hash_table_lookup] at hl
  | cons e t ih =>
    obtain ⟨k0, v0⟩ := e
    by_cases hk : k0 = k
    · subst hk
      simp only [g_hash_table_lookup, if_true] at hl
      subst hl
      exact List.mem_cons_self _ _
    · simp only [g_hash_table_lookup, hk, if_false] at hl
      exact List.mem_cons_of_mem _ (ih hl)

theorem lookup_eq_of_mem (h : GHashTable) (hwf : h.WF) (k : Str) (v : Option Str)
    (hm : (k, v) ∈ h) : g_hash_table_lookup h k = v := by
  induction h with
  | nil => cases hm
  | cons e t ih =>
    obtain ⟨k0, v0⟩ := e
    have hnd : k0 ∉ t.map Prod.fst ∧ (t.map Prod.fst).Nodup := by
      simpa [GHashTable.WF] using hwf
    rcases List.mem_cons.1 hm with heq | hmem
    · cases heq
      simp [g_hash_table_lookup]
    · have hk : k0 ≠ k := by
        intro hk
        subst hk
        exact hnd.1 (List.mem_map.2 ⟨(k0, v), hmem, rfl⟩)
      simp only [g_hash_table_lookup, hk, if_false]
      exact ih hnd.2 hmem

theorem insert_keys (h : GHashTable) (k : Str) (v : Option Str) :
    (g_hash_table_insert h k v).map Prod.fst =
      if k ∈ h.map Prod.fst then h.map Prod.fst else h.map Prod.fst ++ [k] := by
  induction h with
  | nil => simp [g_hash_table_insert]
  | cons e t ih =>
    obtain ⟨k0, v0⟩ := e
    by_cases hk : k0 = k
    · subst hk
      simp [g_hash_table_insert]
    · have hk' : ¬ k = k0 := fun hh => hk hh.symm
      simp only [g_hash_table_insert, hk, if_false, List.map_cons, ih, List.mem_cons, hk',
        false_or]
      split <;> simp

theorem insert_wf (h : GHashTable) (k : Str) (v : Option Str) (hwf : h.WF) :
    (g_hash_table_insert h k v).WF := by
  unfold GHashTable.WF at *
  rw [insert_keys]
  split
  · exact hwf
  · rename_i hk
    rw [List.nodup_append]
    refine ⟨hwf, List.nodup_singleton _, ?_⟩
    intro a ha hb
    simp at hb
    subst hb
    exact hk ha

theorem insert_of_not_mem (h : GHashTable) (k : Str) (v : Option Str)
    (hk : k ∉ h.map Prod.fst) : g_hash_table_insert h k v = h ++ [(k, v)] := by
  induction h with
  | nil => rfl
  | cons e t ih =>
    obtain ⟨k0, v0⟩ := e
    simp only [List.map_cons, List.mem_cons, not_or] at hk
    have hne : ¬ k0 = k := fun hh => hk.1 hh.symm
    simp only [g_hash_table_insert, hne, if_false, List.cons_append, ih hk.2]

/-! ## The key buffers -/

theorem sprintf_config_fits (conf_name : Str) (h : (config_key conf_name).length < PATH_MAX) :
    sprintf_config conf_name = some (config_key conf_name) := by
  simp only [sprintf_config, h, if_true]

theorem sprintf_config_overrun (conf_name : Str)
    (h : PATH_MAX ≤ (config_key conf_name).length) : sprintf_config conf_name = none := by
  simp only [sprintf_config, Nat.not_lt.2 h, if_false]

theorem long_name_overrun : PATH_MAX ≤ (config_key long_name).length := by
  unfold config_key long_name
  rw [List.length_append, List.length_replicate]
  decide

theorem merge_eq (priv : IpcamConfigManagerPrivate) (conf_name : Str) (conf_value : Option Str)
    (h : (config_key conf_name).length < PATH_MAX) :
    ipcam_config_manager_merge priv conf_name conf_value =
      some ⟨config_key conf_name,
        if g_hash_table_contains priv.conf_hash (config_key conf_name) then priv.conf_hash
        else g_hash_table_insert priv.conf_hash (config_key conf_name) conf_value,
        priv.collection⟩ := by
  simp only [ipcam_config_manager_merge, sprintf_config_fits _ h]
  by_cases hc : g_hash_table_contains priv.conf_hash (config_key conf_name) = true
  · simp [hc]
  · simp [hc]

theorem merge_inv (priv merged : IpcamConfigManagerPrivate) (conf_name : Str)
    (conf_value : Option Str)
    (h : ipcam_config_manager_merge priv conf_name conf_value = some merged) :
    (config_key conf_name).length < PATH_MAX ∧
    merged = ⟨config_key conf_name,
      if g_hash_table_contains priv.conf_hash (config_key conf_name) then priv.conf_hash
      else g_hash_table_insert priv.conf_hash (config_key conf_name) conf_value,
      priv.collection⟩ := by
  by_cases hf : (config_key conf_name).length < PATH_MAX
  · rw [merge_eq _ _ _ hf] at h
    exact ⟨hf, (Option.some.inj h).symm⟩
  · simp only [ipcam_config_manager_merge, sprintf_config_overrun _ (Nat.not_lt.1 hf)] at h
    cases h

theorem get_eq (priv : IpcamConfigManagerPrivate) (conf_name : Str)
    (h : (config_key conf_name).length < PATH_MAX) :
    ipcam_config_manager_get priv conf_name =
      some (g_hash_table_lookup priv.conf_hash (config_key conf_name),
        ⟨config_key conf_name, priv.conf_hash, priv.collection⟩) := by
  simp only [ipcam_config_manager_get, sprintf_config_fits _ h]

/-! ## Unfolding the loop of `process_layer` -/

theorem loop_nil (fuel : Nat) (root : GNode) (data last_leaf : NodePtr) (storage : Nat) :
    process_layer_loop fuel [] root data last_leaf storage = none := by
  induction fuel with
  | zero => rfl
  | succ n ih => simpa [process_layer_loop, yaml_parser_parse] using ih

theorem loop_scalar (fuel : Nat) (value : Str) (parser : yaml_parser_t) (root : GNode)
    (data last_leaf : NodePtr) (storage : Nat) :
    process_layer_loop (fuel + 1) (YAML_SCALAR_EVENT value :: parser) root data last_leaf storage =
      if storage ≠ VAR then
        process_layer_loop fuel parser (g_node_append_data root last_leaf value).1 data
          (g_node_append_data root last_leaf value).2 (storage ^^^ VAL)
      else
        process_layer_loop fuel parser (g_node_append_data root data value).1 data
          (g_node_append_data root data value).2 (storage ^^^ VAL) := rfl

theorem loop_mapping_start (fuel : Nat) (parser : yaml_parser_t) (root : GNode)
    (data last_leaf : NodePtr) (storage : Nat) :
    process_layer_loop (fuel + 1) (YAML_MAPPING_START_EVENT :: parser) root data last_leaf storage =
      match process_layer_loop fuel parser root last_leaf last_leaf VAR with
      | none => none
      | some (parser, root) =>
        process_layer_loop fuel parser root data last_leaf (storage ^^^ VAL) := rfl

theorem loop_mapping_end (fuel : Nat) (parser : yaml_parser_t) (root : GNode)
    (data last_leaf : NodePtr) (storage : Nat) :
    process_layer_loop (fuel + 1) (YAML_MAPPING_END_EVENT :: parser) root data last_leaf storage =
      some (parser, root) := rfl

theorem loop_stream_end (fuel : Nat) (parser : yaml_parser_t) (root : GNode)
    (data last_leaf : NodePtr) (storage : Nat) :
    process_layer_loop (fuel + 1) (YAML_STREAM_END_EVENT :: parser) root data last_leaf storage =
      some (parser, root) := rfl

theorem loop_sequence_start (fuel : Nat) (parser : yaml_parser_t) (root : GNode)
    (data last_leaf : NodePtr) (storage : Nat) :
    process_layer_loop (fuel + 1) (YAML_SEQUENCE_START_EVENT :: parser) root data last_leaf
        storage =
      process_layer_loop fuel parser root data last_leaf SEQ := rfl

theorem loop_sequence_end (fuel : Nat) (parser : yaml_parser_t) (root : GNode)
    (data last_leaf : NodePtr) (storage : Nat) :
    process_layer_loop (fuel + 1) (YAML_SEQUENCE_END_EVENT :: parser) root data last_leaf
        storage =
      process_layer_loop fuel parser root data last_leaf VAR := rfl

theorem loop_ignored (fuel : Nat) (e : yaml_event_t) (he : ignored_event e)
    (parser : yaml_parser_t) (root : GNode) (data last_leaf : NodePtr) (storage : Nat) :
    process_layer_loop (fuel + 1) (e :: parser) root data last_leaf storage =
      process_layer_loop fuel parser root data last_leaf storage := by
  rcases he with h | h | h | h | h <;> subst h <;> rfl

/-- The parser returned by the loop is shorter than the one it started from. -/
theorem loop_consumes (fuel : Nat) :
    ∀ (parser : yaml_parser_t) (root : GNode) (data last_leaf : NodePtr) (storage : Nat)
      (rest : yaml_parser_t) (root' : GNode),
      process_layer_loop fuel parser root data last_leaf storage = some (rest, root') →
      rest.length < parser.length := by
  induction fuel with
  | zero => intro parser root data ll st rest root' h; cases h
  | succ n ih =>
    intro parser root data ll st rest root' h
    cases parser with
    | nil => rw [loop_nil] at h; cases h
    | cons e r =>
      have hstep : ∀ root1 data1 ll1 st1,
          process_layer_loop n r root1 data1 ll1 st1 = some (rest, root') →
          rest.length < (e :: r).length := by
        intro root1 data1 ll1 st1 h1
        have := ih r root1 data1 ll1 st1 rest root' h1
        simp only [List.length_cons]
        omega
      cases e with
      | YAML_SCALAR_EVENT value =>
        rw [loop_scalar] at h
        split at h
        · exact hstep _ _ _ _ h
        · exact hstep _ _ _ _ h
      | YAML_MAPPING_START_EVENT =>
        rw [loop_mapping_start] at h
        split at h
        · cases h
        · rename_i p1 root1 hnest
          have h1 := ih r root ll ll VAR p1 root1 hnest
          have h2 := ih p1 root1 data ll (st ^^^ VAL) rest root' h
          simp only [List.length_cons]
          omega
      | YAML_MAPPING_END_EVENT =>
        rw [loop_mapping_end] at h
        cases h
        simp
      | YAML_STREAM_END_EVENT =>
        rw [loop_stream_end] at h
        cases h
        simp
      | YAML_SEQUENCE_START_EVENT => rw [loop_sequence_start] at h; exact hstep _ _ _ _ h
      | YAML_SEQUENCE_END_EVENT => rw [loop_sequence_end] at h; exact hstep _ _ _ _ h
      | YAML_NO_EVENT =>
        rw [loop_ignored _ _ (by simp [ignored_event])] at h; exact hstep _ _ _ _ h
      | YAML_STREAM_START_EVENT =>
        rw [loop_ignored _ _ (by simp [ignored_event])] at h; exact hstep _ _ _ _ h
      | YAML_DOCUMENT_START_EVENT =>
        rw [loop_ignored _ _ (by simp [ignored_event])] at h; exact hstep _ _ _ _ h
      | YAML_DOCUMENT_END_EVENT =>
        rw [loop_ignored _ _ (by simp [ignored_event])] at h; exact hstep _ _ _ _ h
      | YAML_ALIAS_EVENT =>
        rw [loop_ignored _ _ (by simp [ignored_event])] at h; exact hstep _ _ _ _ h

/-- Fuel beyond the number of events is never needed: a result obtained with some fuel
is obtained with any fuel that exceeds the length of the parser. -/
theorem loop_fuel_adequate (fuel : Nat) :
    ∀ (parser : yaml_parser_t) (root : GNode) (data last_leaf : NodePtr) (storage : Nat)
      (res : yaml_parser_t × GNode) (n : Nat),
      process_layer_loop fuel parser root data last_leaf storage = some res →
      parser.length < n →
      process_layer_loop n parser root data last_leaf storage = some res := by
  induction fuel with
  | zero => intro parser root data ll st res n h; cases h
  | succ f ih =>
    intro parser root data ll st res n h hn
    cases parser with
    | nil => rw [loop_nil] at h; cases h
    | cons e r =>
      obtain ⟨m, rfl⟩ : ∃ m, n = m + 1 := ⟨n - 1, by simp at hn; omega⟩
      have hm : r.length < m := by simp at hn; omega
      cases e with
      | YAML_SCALAR_EVENT value =>
        rw [loop_scalar] at h ⊢
        split
        · rename_i hs; rw [if_pos hs] at h; exact ih _ _ _ _ _ _ _ h hm
        · rename_i hs; rw [if_neg hs] at h; exact ih _ _ _ _ _ _ _ h hm
      | YAML_MAPPING_START_EVENT =>
        rw [loop_mapping_start] at h ⊢
        cases hnest : process_layer_loop f r root ll ll VAR with
        | none => rw [hnest] at h; cases h
        | some res1 =>
          obtain ⟨p1, root1⟩ := res1
          rw [hnest] at h
          simp only at h
          have hlen := loop_consumes f r root ll ll VAR p1 root1 hnest
          rw [ih r root ll ll VAR (p1, root1) m hnest hm]
          exact ih _ _ _ _ _ _ _ h (by omega)
      | YAML_MAPPING_END_EVENT => rw [loop_mapping_end] at h ⊢; exact h
      | YAML_STREAM_END_EVENT => rw [loop_stream_end] at h ⊢; exact h
      | YAML_SEQUENCE_START_EVENT =>
        rw [loop_sequence_start] at h ⊢; exact ih _ _ _ _ _ _ _ h hm
      | YAML_SEQUENCE_END_EVENT =>
        rw [loop_sequence_end] at h ⊢; exact ih _ _ _ _ _ _ _ h hm
      | YAML_NO_EVENT =>
        rw [loop_ignored _ _ (by simp [ignored_event])] at h ⊢; exact ih _ _ _ _ _ _ _ h hm
      | YAML_STREAM_START_EVENT =>
        rw [loop_ignored _ _ (by simp [ignored_event])] at h ⊢; exact ih _ _ _ _ _ _ _ h hm
      | YAML_DOCUMENT_START_EVENT =>
        rw [loop_ignored _ _ (by simp [ignored_event])] at h ⊢; exact ih _ _ _ _ _ _ _ h hm
      | YAML_DOCUMENT_END_EVENT =>
        rw [loop_ignored _ _ (by simp [ignored_event])] at h ⊢; exact ih _ _ _ _ _ _ _ h hm
      | YAML_ALIAS_EVENT =>
        rw [loop_ignored _ _ (by simp [ignored_event])] at h ⊢; exact ih _ _ _ _ _ _ _ h hm

/-! ## Trees -/

theorem modify_congr_at {α : Type} (f g : α → α) (l : List α) (i : Nat)
    (h : ∀ c, l[i]? = some c → f c = g c) : l.modify f i = l.modify g i := by
  induction l generalizing i with
  | nil => simp
  | cons a t ih =>
    cases i with
    | zero => simp [h a (by simp)]
    | succ n =>
      simp only [List.modify_succ_cons]
      rw [ih n (fun c hc => h c (by simpa using hc))]

theorem modify_append_length {α : Type} (f : α → α) (pre : List α) (x : α) (post : List α) :
    (pre ++ x :: post).modify f pre.length = pre ++ f x :: post := by
  induction pre with
  | nil => simp
  | cons a t ih => simp [ih]

theorem appendAt_eq_graftAt (path : List Nat) : ∀ (t x : GNode),
    t.appendAt path x = t.graftAt path [x] := by
  induction path with
  | nil => intro t x; cases t; rfl
  | cons i p ih =>
    intro t x
    cases t with
    | mk d cs =>
      simp only [GNode.appendAt, GNode.graftAt]
      congr 1
      exact modify_congr_at _ _ _ _ (fun c _ => ih c x)

theorem graftAt_data (path : List Nat) (t : GNode) (xs : List GNode) :
    (t.graftAt path xs).data = t.data := by
  cases t; cases path <;> rfl

theorem descend_append (p q : List Nat) : ∀ (t : GNode),
    t.descend (p ++ q) = (t.descend p).bind (fun n => n.descend q) := by
  induction p with
  | nil => intro t; simp [GNode.descend]
  | cons i p ih =>
    intro t
    cases t with
    | mk d cs =>
      simp only [List.cons_append, GNode.descend]
      cases cs[i]? with
      | none => rfl
      | some c => exact ih c

theorem graftAt_graftAt (path : List Nat) : ∀ (t : GNode) (xs ys : List GNode),
    (t.graftAt path xs).graftAt path ys = t.graftAt path (xs ++ ys) := by
  induction path with
  | nil => intro t xs ys; cases t; simp [GNode.graftAt]
  | cons i p ih =>
    intro t xs ys
    cases t with
    | mk d cs =>
      simp only [GNode.graftAt, List.modify_modify_eq]
      congr 1
      exact modify_congr_at _ _ _ _ (fun c _ => ih c xs ys)

theorem descend_graftAt (path : List Nat) : ∀ (t : GNode) (d : Str) (cs xs : List GNode),
    t.descend path = some (.mk d cs) →
    (t.graftAt path xs).descend path = some (.mk d (cs ++ xs)) := by
  induction path with
  | nil =>
    intro t d cs xs h
    simp only [GNode.descend] at h
    cases h
    rfl
  | cons i p ih =>
    intro t d cs xs h
    cases t with
    | mk d0 cs0 =>
      simp only [GNode.descend] at h
      simp only [GNode.graftAt, GNode.descend, List.getElem?_modify_eq]
      cases hc : cs0[i]? with
      | none => rw [hc] at h; cases h
      | some c =>
        rw [hc] at h
        simp only at h
        simpa using ih c d cs xs h

/-- Grafting below the child that has just been grafted is grafting a bigger child. -/
theorem graftAt_child (path : List Nat) : ∀ (t : GNode) (d k : Str) (cs ks ys : List GNode),
    t.descend path = some (.mk d cs) →
    (t.graftAt path [.mk k ks]).graftAt (path ++ [cs.length]) ys =
      t.graftAt path [.mk k (ks ++ ys)] := by
  induction path with
  | nil =>
    intro t d k cs ks ys h
    simp only [GNode.descend] at h
    cases h
    simp only [GNode.graftAt, List.nil_append]
    congr 1
    have := modify_append_length (fun c : GNode => c.graftAt [] ys) cs (.mk k ks) []
    simpa [GNode.graftAt] using this
  | cons i p ih =>
    intro t d k cs ks ys h
    cases t with
    | mk d0 cs0 =>
      simp only [GNode.descend] at h
      simp only [List.cons_append, GNode.graftAt, List.modify_modify_eq]
      congr 1
      apply modify_congr_at
      intro c hc
      rw [hc] at h
      exact ih c d k cs ks ys h

theorem graftAt_nil (path : List Nat) : ∀ (t n : GNode), t.descend path = some n →
    t.graftAt path [] = t := by
  induction path with
  | nil => intro t n _; cases t; simp [GNode.graftAt]
  | cons i p ih =>
    intro t n h
    cases t with
    | mk d cs =>
      simp only [GNode.descend] at h
      simp only [GNode.graftAt]
      congr 1
      have hc : cs.modify (fun c => c.graftAt p []) i = cs.modify id i := by
        apply modify_congr_at
        intro c hc
        rw [hc] at h
        exact ih c n h
      rw [hc, List.modify_id]

theorem deref_eq (root : GNode) (p : NodePtr) : root.deref p = root.descend p.reverse := rfl

theorem g_node_append_data_eq (root : GNode) (data : NodePtr) (d : Str) (cs : List GNode)
    (value : Str) (h : root.deref data = some (.mk d cs)) :
    g_node_append_data root data value =
      (root.graftAt data.reverse [.mk value []], cs.length :: data) := by
  simp only [g_node_append_data, g_node_n_children, h, appendAt_eq_graftAt, GNode.children]

theorem deref_graftAt (root : GNode) (data : NodePtr) (d : Str) (cs xs : List GNode)
    (h : root.deref data = some (.mk d cs)) :
    (root.graftAt data.reverse xs).deref data = some (.mk d (cs ++ xs)) :=
  descend_graftAt _ _ _ _ _ h

theorem deref_new_child (root : GNode) (data : NodePtr) (d : Str) (cs : List GNode) (x : GNode)
    (h : root.deref data = some (.mk d cs)) :
    (root.graftAt data.reverse [x]).deref (cs.length :: data) = some x := by
  have h1 := deref_graftAt root data d cs [x] h
  rw [deref_eq] at h1 ⊢
  rw [List.reverse_cons, descend_append, h1]
  simp [GNode.descend]

theorem graftAt_new_child (root : GNode) (data : NodePtr) (d k : Str) (cs ks ys : List GNode)
    (h : root.deref data = some (.mk d cs)) :
    (root.graftAt data.reverse [.mk k ks]).graftAt (cs.length :: data).reverse ys =
      root.graftAt data.reverse [.mk k (ks ++ ys)] := by
  rw [List.reverse_cons]
  exact graftAt_child _ _ _ _ _ _ _ h

/-- The loop on the events of a mapping body: the nodes of the entries are hung below
`data`, and the loop returns right after the closing mapping-end. -/
theorem loop_mapping (m : Mapping) :
    ∀ (fuel : Nat) (root : GNode) (data last_leaf : NodePtr) (rest : yaml_parser_t) (d : Str)
      (cs : List GNode),
      root.deref data = some (.mk d cs) → m.events.length < fuel →
      process_layer_loop fuel (m.events ++ YAML_MAPPING_END_EVENT :: rest) root data last_leaf
          VAR =
        some (rest, root.graftAt data.reverse m.nodes) := by
  induction m with
  | nil =>
    intro fuel root data ll rest d cs h hf
    obtain ⟨f, rfl⟩ : ∃ f, fuel = f + 1 := ⟨fuel - 1, by omega⟩
    simp only [Mapping.events, Mapping.nodes, List.nil_append, loop_mapping_end]
    rw [graftAt_nil _ _ _ h]
  | scalar k v rest' ih =>
    intro fuel root data ll rest d cs h hf
    simp only [Mapping.events, List.length_cons] at hf
    obtain ⟨f, rfl⟩ : ∃ f, fuel = f + 2 := ⟨fuel - 2, by omega⟩
    simp only [Mapping.events, Mapping.nodes, List.cons_append]
    rw [loop_scalar, if_neg (by simp), g_node_append_data_eq _ _ _ _ _ h]
    simp only
    rw [loop_scalar, if_pos (by decide),
      g_node_append_data_eq _ _ k [] v (deref_new_child _ _ _ _ _ h)]
    simp only
    rw [graftAt_new_child _ _ _ _ _ _ _ h]
    have h2 := deref_graftAt root data d cs [.mk k ([] ++ [.mk v []])] h
    rw [show (VAR ^^^ VAL) ^^^ VAL = VAR from rfl, ih f _ data _ rest d _ h2 (by omega),
      graftAt_graftAt]
    rfl
  | nested k body rest' ihb ihr =>
    intro fuel root data ll rest d cs h hf
    simp only [Mapping.events, List.length_cons, List.length_append] at hf
    obtain ⟨f, rfl⟩ : ∃ f, fuel = f + 2 := ⟨fuel - 2, by omega⟩
    simp only [Mapping.events, Mapping.nodes, List.cons_append, List.append_assoc]
    rw [loop_scalar, if_neg (by simp), g_node_append_data_eq _ _ _ _ _ h]
    simp only
    rw [loop_mapping_start,
      ihb f _ (cs.length :: data) (cs.length :: data) _ k [] (deref_new_child _ _ _ _ _ h)
        (by omega)]
    simp only
    rw [graftAt_new_child _ _ _ _ _ _ _ h]
    have h2 := deref_graftAt root data d cs [.mk k ([] ++ body.nodes)] h
    rw [show (VAR ^^^ VAL) ^^^ VAL = VAR from rfl, ihr f _ data _ rest d _ h2 (by omega),
      graftAt_graftAt]
    rfl

/-- The builder on the event stream of a document returns the tree of the document. -/
theorem process_layer_document (m : Mapping) (fuel : Nat)
    (hf : m.document_events.length < fuel) :
    process_layer fuel m.document_events (g_node_new "config".toList) [] =
      some ([], .mk "config".toList m.nodes) := by
  simp only [Mapping.document_events, List.length_cons, List.length_append] at hf
  obtain ⟨f, rfl⟩ : ∃ f, fuel = f + 5 := ⟨fuel - 5, by omega⟩
  simp only [process_layer, Mapping.document_events]
  rw [loop_ignored _ _ (by simp [ignored_event]), loop_ignored _ _ (by simp [ignored_event]),
    loop_mapping_start]
  have h0 : (g_node_new "config".toList).deref [] = some (.mk "config".toList []) := rfl
  have := loop_mapping m (f + 2) (g_node_new "config".toList) [] []
    [YAML_DOCUMENT_END_EVENT, YAML_STREAM_END_EVENT] _ _ h0 (by omega)
  simp only [List.cons_append, List.nil_append] at this
  rw [this]
  simp only
  rw [loop_ignored _ _ (by simp [ignored_event]), loop_stream_end]
  rfl

/-! ## One flat layer -/

theorem loop_pairs (pairs : List (Str × Str)) :
    ∀ (fuel : Nat) (root : GNode) (data last_leaf : NodePtr) (rest : yaml_parser_t) (d : Str)
      (cs : List GNode),
      root.deref data = some (.mk d cs) → (pair_events pairs).length < fuel →
      process_layer_loop fuel (pair_events pairs ++ YAML_MAPPING_END_EVENT :: rest) root data
          last_leaf VAR =
        some (rest, root.graftAt data.reverse (pairs.map pair_node)) := by
  induction pairs with
  | nil =>
    intro fuel root data ll rest d cs h hf
    obtain ⟨f, rfl⟩ : ∃ f, fuel = f + 1 := ⟨fuel - 1, by omega⟩
    simp only [pair_events, List.map_nil, List.nil_append, loop_mapping_end]
    rw [graftAt_nil _ _ _ h]
  | cons kv pairs ih =>
    intro fuel root data ll rest d cs h hf
    simp only [pair_events, List.length_cons] at hf
    obtain ⟨f, rfl⟩ : ∃ f, fuel = f + 2 := ⟨fuel - 2, by omega⟩
    simp only [pair_events, List.map_cons, List.cons_append]
    rw [loop_scalar, if_neg (by simp), g_node_append_data_eq _ _ _ _ _ h]
    simp only
    rw [loop_scalar, if_pos (by decide),
      g_node_append_data_eq _ _ kv.1 [] kv.2 (deref_new_child _ _ _ _ _ h)]
    simp only
    rw [graftAt_new_child _ _ _ _ _ _ _ h]
    have h2 := deref_graftAt root data d cs [.mk kv.1 ([] ++ [.mk kv.2 []])] h
    rw [show (VAR ^^^ VAL) ^^^ VAL = VAR from rfl, ih f _ data _ rest d _ h2 (by omega),
      graftAt_graftAt]
    rfl

/-- C11: a call of `process_layer` on a parent that exists in the tree, reading `n` pairs
of scalars and then a mapping-end, returns right after the mapping-end; the tree differs
only below the parent, which keeps its children and gains after them one node per pair,
in order, labelled with the first scalar of the pair and having as only child a leaf
labelled with the second. -/
theorem flat_layer_alternation (pairs : List (Str × Str)) (fuel : Nat) (root : GNode)
    (data : NodePtr) (rest : yaml_parser_t) (d : Str) (cs : List GNode)
    (hdata : root.deref data = some (.mk d cs)) (hfuel : (pair_events pairs).length < fuel) :
    process_layer fuel (pair_events pairs ++ YAML_MAPPING_END_EVENT :: rest) root data =
      some (rest, root.graftAt data.reverse (pairs.map pair_node)) ∧
    (root.graftAt data.reverse (pairs.map pair_node)).deref data =
      some (.mk d (cs ++ pairs.map pair_node)) :=
  ⟨loop_pairs pairs fuel root data data rest d cs hdata hfuel,
   deref_graftAt root data d cs _ hdata⟩

/-- C11, for the pairs `b: 1` and `c: 2` read below the node `a`: the node `a` gets the
children `b` over `1` and `c` over `2`. -/
theorem flat_layer_alternation_witness :
    process_layer 5
        (pair_events [("b".toList, "1".toList), ("c".toList, "2".toList)] ++
          YAML_MAPPING_END_EVENT :: [YAML_MAPPING_END_EVENT])
        (.mk "config".toList [.mk "a".toList []]) [0] =
      some ([YAML_MAPPING_END_EVENT],
        (GNode.mk "config".toList [.mk "a".toList []]).graftAt [0]
          ([("b".toList, "1".toList), ("c".toList, "2".toList)].map pair_node)) ∧
    ((GNode.mk "config".toList [.mk "a".toList []]).graftAt [0]
        ([("b".toList, "1".toList), ("c".toList, "2".toList)].map pair_node)).deref [0] =
      some (.mk "a".toList ([] ++
        [("b".toList, "1".toList), ("c".toList, "2".toList)].map pair_node)) :=
  flat_layer_alternation [("b".toList, "1".toList), ("c".toList, "2".toList)] 5
    (.mk "config".toList [.mk "a".toList []]) [0] [YAML_MAPPING_END_EVENT] "a".toList [] rfl
    (by decide)

/-! ## Sequence mode -/

/-- With more fuel than events the loop gives the same answer whatever the fuel. -/
theorem loop_fuel_irrelevant (n m : Nat) (parser : yaml_parser_t) (root : GNode)
    (data last_leaf : NodePtr) (storage : Nat) (hn : parser.length < n)
    (hm : parser.length < m) :
    process_layer_loop n parser root data last_leaf storage =
      process_layer_loop m parser root data last_leaf storage := by
  cases h1 : process_layer_loop n parser root data last_leaf storage with
  | some r => exact (loop_fuel_adequate n _ _ _ _ _ r m h1 hm).symm
  | none =>
    cases h2 : process_layer_loop m parser root data last_leaf storage with
    | none => rfl
    | some r =>
      rw [loop_fuel_adequate m _ _ _ _ _ r n h2 hn] at h1
      cases h1

theorem seq_storage_mode (items : List SeqItem) : ∀ storage : Nat,
    storage = SEQ ∨ storage = SEQ ^^^ VAL →
    seq_storage storage items = SEQ ∨ seq_storage storage items = SEQ ^^^ VAL := by
  induction items with
  | nil => intro s hs; exact hs
  | cons i items ih =>
    intro s hs
    apply ih
    rcases hs with hs | hs <;> subst hs
    · exact Or.inr rfl
    · exact Or.inl rfl

theorem loop_seq_items (items : List SeqItem) :
    ∀ (fuel : Nat) (root : GNode) (data last_leaf : NodePtr) (storage : Nat)
      (rest : yaml_parser_t) (d : Str) (cs : List GNode),
      storage = SEQ ∨ storage = SEQ ^^^ VAL →
      root.deref last_leaf = some (.mk d cs) →
      (seq_events items ++ rest).length < fuel →
      process_layer_loop fuel (seq_events items ++ rest) root data last_leaf storage =
        process_layer_loop fuel rest (seq_result root last_leaf items).1 data
          (seq_result root last_leaf items).2 (seq_storage storage items) := by
  induction items with
  | nil => intro fuel root data ll s rest d cs _ _ _; rfl
  | cons i items ih =>
    intro fuel root data ll s rest d cs hs hll hf
    have hs' : s ^^^ VAL = SEQ ∨ s ^^^ VAL = SEQ ^^^ VAL := by
      rcases hs with hs | hs <;> subst hs
      · exact Or.inr rfl
      · exact Or.inl rfl
    have hne : s ≠ VAR := by
      rcases hs with hs | hs <;> subst hs <;> decide
    cases i with
    | scalar v =>
      simp only [seq_events, List.cons_append, List.length_cons] at hf ⊢
      obtain ⟨f, rfl⟩ : ∃ f, fuel = f + 1 := ⟨fuel - 1, by omega⟩
      rw [loop_scalar, if_pos hne]
      simp only [seq_result, seq_storage]
      have hnew : (g_node_append_data root ll v).1.deref (g_node_append_data root ll v).2 =
          some (.mk v []) := by
        rw [g_node_append_data_eq _ _ _ _ _ hll]
        exact deref_new_child _ _ _ _ _ hll
      rw [ih f _ data _ _ rest v [] hs' hnew (by omega)]
      exact loop_fuel_irrelevant _ _ _ _ _ _ _
        (by simp only [List.length_append] at hf; omega)
        (by simp only [List.length_append] at hf; omega)
    | mapping m =>
      simp only [seq_events, List.cons_append, List.append_assoc, List.length_cons,
        List.length_append] at hf ⊢
      obtain ⟨f, rfl⟩ : ∃ f, fuel = f + 1 := ⟨fuel - 1, by omega⟩
      rw [loop_mapping_start, loop_mapping m f root ll ll _ d cs hll (by omega)]
      simp only [seq_result, seq_storage]
      rw [ih f _ data ll _ rest d _ hs' (deref_graftAt root ll d cs m.nodes hll)
        (by simp only [List.length_append]; omega)]
      exact loop_fuel_irrelevant _ _ _ _ _ _ _ (by omega) (by omega)

/-- From sequence-start to sequence-end the layer arrives at `VAR`, with the tree and
the `last_leaf` that the run of elements leaves. -/
theorem loop_seq_run (items : List SeqItem) (fuel : Nat) (root : GNode)
    (data last_leaf : NodePtr) (rest : yaml_parser_t) (d : Str) (cs : List GNode)
    (hleaf : root.deref last_leaf = some (.mk d cs))
    (hfuel : (seq_events items ++ rest).length + 2 < fuel) (storage : Nat) :
    process_layer_loop fuel
        (YAML_SEQUENCE_START_EVENT :: (seq_events items ++ YAML_SEQUENCE_END_EVENT :: rest))
        root data last_leaf storage =
      process_layer_loop fuel rest (seq_result root last_leaf items).1 data
        (seq_result root last_leaf items).2 VAR := by
  obtain ⟨f, rfl⟩ : ∃ f, fuel = f + 2 := ⟨fuel - 2, by omega⟩
  rw [loop_sequence_start,
    loop_seq_items items (f + 1) root data last_leaf SEQ (YAML_SEQUENCE_END_EVENT :: rest) d cs
      (Or.inl rfl) hleaf (by simp only [List.length_append, List.length_cons] at hfuel ⊢; omega),
    loop_sequence_end]
  exact loop_fuel_irrelevant _ _ _ _ _ _ _
    (by simp only [List.length_append] at hfuel; omega)
    (by simp only [List.length_append] at hfuel; omega)

/-- C12: while `storage` is `SEQ` or `SEQ` flipped, after any run of scalars and nested
mappings the layer goes on with a `storage` that is again one of these two, hence not
`VAR`; every scalar of the run has been appended below `last_leaf` and the entries of
every nested mapping have been hung below `last_leaf`; and from sequence-start to
sequence-end the layer arrives at `VAR` with that same tree. The node `last_leaf` must
exist in the tree. -/
theorem sequence_mode_kept (items : List SeqItem) (fuel : Nat) (root : GNode)
    (data last_leaf : NodePtr) (rest : yaml_parser_t) (d : Str) (cs : List GNode)
    (hleaf : root.deref last_leaf = some (.mk d cs))
    (hfuel : (seq_events items ++ rest).length + 2 < fuel) :
    (∀ storage, storage = SEQ ∨ storage = SEQ ^^^ VAL →
      process_layer_loop fuel (seq_events items ++ rest) root data last_leaf storage =
        process_layer_loop fuel rest (seq_result root last_leaf items).1 data
          (seq_result root last_leaf items).2 (seq_storage storage items) ∧
      (seq_storage storage items = SEQ ∨ seq_storage storage items = SEQ ^^^ VAL) ∧
      seq_storage storage items ≠ VAR) ∧
    (∀ storage,
      process_layer_loop fuel
          (YAML_SEQUENCE_START_EVENT :: (seq_events items ++ YAML_SEQUENCE_END_EVENT :: rest))
          root data last_leaf storage =
        process_layer_loop fuel rest (seq_result root last_leaf items).1 data
          (seq_result root last_leaf items).2 VAR) := by
  constructor
  · intro s hs
    have hmode := seq_storage_mode items s hs
    refine ⟨loop_seq_items items fuel root data last_leaf s rest d cs hs hleaf (by omega),
      hmode, ?_⟩
    rcases hmode with h | h <;> rw [h] <;> decide
  · exact loop_seq_run items fuel root data last_leaf rest d cs hleaf hfuel

/-- C12, below the key `list`: for the sequence of the scalar `x`, the mapping `{k: v}`
and the scalar `y`, the node `x` gets the children `k` and `y` and the root gets no new
child. -/
theorem sequence_mode_kept_witness :
    process_layer_loop 12
        (YAML_SEQUENCE_START_EVENT ::
          (seq_events [.scalar "x".toList, .mapping (.scalar "k".toList "v".toList .nil),
              .scalar "y".toList] ++
            YAML_SEQUENCE_END_EVENT :: [YAML_MAPPING_END_EVENT]))
        (.mk "config".toList [.mk "list".toList []]) [] [0] VAL =
      some ([], .mk "config".toList [.mk "list".toList [.mk "x".toList
        [.mk "k".toList [.mk "v".toList []], .mk "y".toList []]]]) :=
  ((sequence_mode_kept
      [.scalar "x".toList, .mapping (.scalar "k".toList "v".toList .nil), .scalar "y".toList]
      12 (.mk "config".toList [.mk "list".toList []]) [] [0] [YAML_MAPPING_END_EVENT]
      "list".toList [] rfl (by decide)).2 VAL).trans rfl

/-! ## Termination on balanced streams -/

/-- A layer started before a balanced run of events and a terminating event returns
right after that event. -/
theorem loop_balanced (body : yaml_parser_t) (hb : Balanced body) :
    ∀ (term : yaml_event_t),
      term = YAML_MAPPING_END_EVENT ∨ term = YAML_STREAM_END_EVENT →
      ∀ (fuel : Nat) (rest : yaml_parser_t) (root : GNode) (data last_leaf : NodePtr)
        (storage : Nat),
        body.length < fuel →
        ∃ root', process_layer_loop fuel (body ++ term :: rest) root data last_leaf storage =
          some (rest, root') := by
  induction hb with
  | nil =>
    intro term ht fuel rest root data ll st hf
    obtain ⟨f, rfl⟩ : ∃ f, fuel = f + 1 := ⟨fuel - 1, by omega⟩
    rcases ht with ht | ht <;> subst ht
    · exact ⟨root, loop_mapping_end _ _ _ _ _ _⟩
    · exact ⟨root, loop_stream_end _ _ _ _ _ _⟩
  | skip e es h1 h2 h3 _ ih =>
    intro term ht fuel rest root data ll st hf
    simp only [List.length_cons] at hf
    obtain ⟨f, rfl⟩ : ∃ f, fuel = f + 1 := ⟨fuel - 1, by omega⟩
    simp only [List.cons_append]
    cases e with
    | YAML_SCALAR_EVENT value =>
      rw [loop_scalar]
      split
      · exact ih term ht f rest _ _ _ _ (by omega)
      · exact ih term ht f rest _ _ _ _ (by omega)
    | YAML_MAPPING_START_EVENT => exact absurd rfl h1
    | YAML_MAPPING_END_EVENT => exact absurd rfl h2
    | YAML_STREAM_END_EVENT => exact absurd rfl h3
    | YAML_SEQUENCE_START_EVENT =>
      rw [loop_sequence_start]; exact ih term ht f rest _ _ _ _ (by omega)
    | YAML_SEQUENCE_END_EVENT =>
      rw [loop_sequence_end]; exact ih term ht f rest _ _ _ _ (by omega)
    | YAML_NO_EVENT =>
      rw [loop_ignored _ _ (by simp [ignored_event])]
      exact ih term ht f rest _ _ _ _ (by omega)
    | YAML_STREAM_START_EVENT =>
      rw [loop_ignored _ _ (by simp [ignored_event])]
      exact ih term ht f rest _ _ _ _ (by omega)
    | YAML_DOCUMENT_START_EVENT =>
      rw [loop_ignored _ _ (by simp [ignored_event])]
      exact ih term ht f rest _ _ _ _ (by omega)
    | YAML_DOCUMENT_END_EVENT =>
      rw [loop_ignored _ _ (by simp [ignored_event])]
      exact ih term ht f rest _ _ _ _ (by omega)
    | YAML_ALIAS_EVENT =>
      rw [loop_ignored _ _ (by simp [ignored_event])]
      exact ih term ht f rest _ _ _ _ (by omega)
  | nest inner es _ _ ihb ihe =>
    intro term ht fuel rest root data ll st hf
    simp only [List.length_cons, List.length_append] at hf
    obtain ⟨f, rfl⟩ : ∃ f, fuel = f + 1 := ⟨fuel - 1, by omega⟩
    simp only [List.cons_append, List.append_assoc]
    rw [loop_mapping_start]
    obtain ⟨root1, h1⟩ := ihb YAML_MAPPING_END_EVENT (Or.inl rfl) f (es ++ term :: rest) root
      ll ll VAR (by omega)
    rw [h1]
    exact ihe term ht f rest root1 data ll _ (by omega)

/-! ## The leaf traversal and `to_hash` -/

theorem gnode_induction {P : GNode → Prop} {Q : List GNode → Prop}
    (hmk : ∀ d cs, Q cs → P (.mk d cs)) (hnil : Q [])
    (hcons : ∀ c cs, P c → Q cs → Q (c :: cs)) : (∀ t, P t) ∧ (∀ cs, Q cs) :=
  ⟨fun t => @GNode.rec P Q hmk hnil hcons t, fun cs => @GNode.rec_1 P Q hmk hnil hcons cs⟩

theorem node_data_of_deref (root : GNode) (p : NodePtr) (n : GNode)
    (h : root.deref p = some n) : node_data root p = n.data := by
  simp [node_data, h]

theorem getElem?_append_length {α : Type} (pre : List α) (c : α) (cs : List α) :
    (pre ++ c :: cs)[pre.length]? = some c := by
  induction pre with
  | nil => simp
  | cons a t ih => simpa using ih

theorem deref_child (root : GNode) (q : NodePtr) (d : Str) (pre : List GNode) (c : GNode)
    (cs : List GNode) (h : root.deref q = some (.mk d (pre ++ c :: cs))) :
    root.deref (pre.length :: q) = some c := by
  have hc := getElem?_append_length pre c cs
  rw [deref_eq] at h ⊢
  rw [List.reverse_cons, descend_append, h]
  simp only [Option.bind, GNode.descend, hc]

theorem deref_root (root : GNode) : root.deref [] = some root := by
  cases root; rfl

theorem flat_node_cons (anc : List Str) (d : Str) (cs : List GNode) (h : cs ≠ []) :
    flat_node anc (.mk d cs) = flat_children (d :: anc) cs := by
  cases cs with
  | nil => exact absurd rfl h
  | cons c cs => simp [flat_node]

theorem traverse_leaves_cons (d : Str) (cs : List GNode) (p : NodePtr) (h : cs ≠ []) :
    traverse_leaves (.mk d cs) p = traverse_children cs p 0 := by
  cases cs with
  | nil => exact absurd rfl h
  | cons c cs => simp [traverse_leaves]

/-- Walking up the parents from each visited leaf gives what a top-down walk that
carries the labels of the ancestors gives. -/
theorem traverse_eq_flat (root : GNode) :
    (∀ n : GNode, ∀ q : NodePtr, root.deref q = some n →
      (traverse_leaves n q).map (fun p => (to_hash_array root p, node_data root p)) =
        flat_node (to_hash_array root q) n) ∧
    (∀ cs : List GNode, ∀ (q : NodePtr) (d : Str) (pre : List GNode),
      root.deref q = some (.mk d (pre ++ cs)) →
      (traverse_children cs q pre.length).map
          (fun p => (to_hash_array root p, node_data root p)) =
        flat_children (d :: to_hash_array root q) cs) := by
  apply gnode_induction
  · intro d cs hQ q h
    cases cs with
    | nil => simp [traverse_leaves, flat_node, node_data_of_deref _ _ _ h, GNode.data]
    | cons c cs =>
      rw [traverse_leaves_cons _ _ _ (by simp), flat_node_cons _ _ _ (by simp)]
      exact hQ q d [] h
  · intro q d pre _
    simp [traverse_children, flat_children]
  · intro c cs hP hQ q d pre h
    simp only [traverse_children, flat_children, List.map_append]
    rw [hP (pre.length :: q) (deref_child _ _ _ _ _ _ h)]
    have h' : root.deref q = some (.mk d ((pre ++ [c]) ++ cs)) := by simpa using h
    have := hQ q d (pre ++ [c]) h'
    simp only [List.length_append, List.length_singleton] at this
    rw [this]
    simp [to_hash_array, node_data_of_deref _ _ _ h, GNode.data]

theorem colon_join_cons (a : Str) (l : List Str) :
    colon_join (a :: l) = if l = [] then a else a ++ ':' :: colon_join l := by
  cases l <;> simp [colon_join]

theorem strcat_eq (key src : Str) :
    strcat key src = if (key ++ src).length < PATH_MAX then some (key ++ src) else none := rfl

/-- The bounded loop of `to_hash` gives the colon-joined labels when they fit the buffer
with the terminator, and overruns the buffer otherwise. -/
theorem to_hash_key_eq (array : List Str) : ∀ (j : Nat) (key : Str), key.length < PATH_MAX →
    j ≤ array.length →
    to_hash_key array j key =
      if (key ++ colon_join ((array.take j).reverse)).length < PATH_MAX then
        some (key ++ colon_join ((array.take j).reverse))
      else none := by
  intro j
  induction j with
  | zero => intro key hk _; simp [to_hash_key, colon_join, hk]
  | succ j ih =>
    intro key hk hj
    have hlt : j < array.length := by omega
    have hget : array.getD j [] = array[j] := by
      simp [List.getD, List.getElem?_eq_getElem hlt]
    have hrev : (array.take (j + 1)).reverse = array[j] :: (array.take j).reverse := by
      rw [List.take_succ, List.getElem?_eq_getElem hlt]
      simp
    rw [hrev, colon_join_cons]
    simp only [to_hash_key, strcat_eq, hget]
    cases j with
    | zero =>
      simp only [List.take_zero, List.reverse_nil, if_true]
      by_cases h1 : (key ++ array[0]).length < PATH_MAX
      · rw [if_pos h1]
        simp [to_hash_key]
      · rw [if_neg h1]
    | succ j =>
      have hne : (List.take (j + 1) array).reverse ≠ [] := by
        intro hh
        have := congrArg List.length hh
        simp only [List.length_reverse, List.length_take, List.length_nil] at this
        omega
      rw [if_neg hne]
      by_cases h1 : (key ++ array[j + 1]).length < PATH_MAX
      · by_cases h2 : (key ++ array[j + 1] ++ [':']).length < PATH_MAX
        · simp only [h1, h2, if_true, ge_iff_le, Nat.le_add_left]
          rw [ih _ h2 (by omega)]
          simp only [List.append_assoc, List.singleton_append]
        · have h3 : ¬ (key ++ (array[j + 1] ++
              ':' :: colon_join (List.take (j + 1) array).reverse)).length < PATH_MAX := by
            simp only [List.length_append, List.length_cons, List.length_singleton,
              List.length_nil] at h2 ⊢
            omega
          simp only [h1, h2, h3, if_true, if_false, ge_iff_le, Nat.le_add_left]
      · have h3 : ¬ (key ++ (array[j + 1] ++
            ':' :: colon_join (List.take (j + 1) array).reverse)).length < PATH_MAX := by
          simp only [List.length_append, List.length_cons] at h1 ⊢
          omega
        simp only [h1, h3, if_false]

theorem to_hash_array_length (root : GNode) (node : NodePtr) :
    (to_hash_array root node).length = node.length := by
  induction node with
  | nil => rfl
  | cons i p ih => simp [to_hash_array, ih]

/-- The callback `to_hash` inserts the entry of the node when its key fits the buffer
with the terminator, and overruns the buffer otherwise. -/
theorem to_hash_eq (root : GNode) (node : NodePtr) (priv : IpcamConfigManagerPrivate) :
    to_hash root node priv =
      if (to_hash_entry root node).1.length < PATH_MAX then
        some ⟨priv.key,
          g_hash_table_insert priv.conf_hash (to_hash_entry root node).1
            (some (to_hash_entry root node).2), priv.collection⟩
      else none := by
  have hk := to_hash_key_eq (to_hash_array root node) node.length [] (by decide)
    (by rw [to_hash_array_length])
  rw [← to_hash_array_length root node, List.take_length, List.nil_append,
    to_hash_array_length] at hk
  simp only [to_hash, g_node_depth, Nat.add_sub_cancel, hk, to_hash_entry]
  by_cases hf : (colon_join (to_hash_array root node).reverse).length < PATH_MAX
  · simp only [hf, if_true]
  · simp only [hf, if_false]

theorem flatten_entries_eq (root : GNode) :
    flatten_entries root =
      (flat_node [] root).map (fun l => (colon_join l.1.reverse, l.2)) := by
  have h := (traverse_eq_flat root).1 root [] (deref_root root)
  simp only [to_hash_array] at h
  rw [← h]
  simp [flatten_entries, g_node_traverse_leaves, to_hash_entry]

/-! ## Loading -/

theorem insert_pairs_cons (h : GHashTable) (e : Str × Option Str)
    (es : List (Str × Option Str)) :
    insert_pairs h (e :: es) = insert_pairs (g_hash_table_insert h e.1 e.2) es := rfl

theorem insert_pairs_append (h : GHashTable) (es fs : List (Str × Option Str)) :
    insert_pairs h (es ++ fs) = insert_pairs (insert_pairs h es) fs := by
  simp [insert_pairs, List.foldl_append]

theorem lookup_insert_pairs_of_not_mem (es : List (Str × Option Str)) :
    ∀ (h : GHashTable) (k : Str), k ∉ es.map Prod.fst →
    g_hash_table_lookup (insert_pairs h es) k = g_hash_table_lookup h k := by
  induction es with
  | nil => intro h k _; rfl
  | cons e es ih =>
    intro h k hk
    simp only [List.map_cons, List.mem_cons, not_or] at hk
    rw [insert_pairs_cons, ih _ _ hk.2, lookup_insert_ne _ _ _ _ (fun hh => hk.1 hh.symm)]

theorem lookup_insert_pairs_last (h : GHashTable) (pre post : List (Str × Option Str))
    (k : Str) (v : Option Str) (hk : k ∉ post.map Prod.fst) :
    g_hash_table_lookup (insert_pairs h (pre ++ (k, v) :: post)) k = v := by
  rw [insert_pairs_append, insert_pairs_cons, lookup_insert_pairs_of_not_mem _ _ _ hk,
    lookup_insert_self]

theorem lookup_insert_pairs_mem (es : List (Str × Option Str)) :
    ∀ (h : GHashTable) (k : Str), k ∈ es.map Prod.fst →
    ∃ v, (k, v) ∈ es ∧ g_hash_table_lookup (insert_pairs h es) k = v := by
  induction es with
  | nil => intro h k hk; simp at hk
  | cons e es ih =>
    intro h k hk
    by_cases hin : k ∈ es.map Prod.fst
    · obtain ⟨v, hv, hl⟩ := ih (g_hash_table_insert h e.1 e.2) k hin
      exact ⟨v, List.mem_cons_of_mem _ hv, by rw [insert_pairs_cons]; exact hl⟩
    · have he : e.1 = k := by
        simp only [List.map_cons, List.mem_cons] at hk
        rcases hk with hk | hk
        · exact hk.symm
        · exact absurd hk hin
      refine ⟨e.2, ?_, ?_⟩
      · rw [← he]; exact List.mem_cons_self _ _
      · rw [insert_pairs_cons, lookup_insert_pairs_of_not_mem _ _ _ hin, he, lookup_insert_self]

theorem insert_pairs_keys (es : List (Str × Option Str)) : ∀ (h : GHashTable) (k : Str),
    k ∈ (insert_pairs h es).map Prod.fst ↔ k ∈ h.map Prod.fst ∨ k ∈ es.map Prod.fst := by
  induction es with
  | nil => intro h k; simp [insert_pairs]
  | cons e es ih =>
    intro h k
    rw [insert_pairs_cons, ih, insert_keys]
    by_cases he : e.1 ∈ h.map Prod.fst
    · rw [if_pos he]
      simp only [List.map_cons, List.mem_cons]
      constructor
      · rintro (h1 | h1)
        · exact Or.inl h1
        · exact Or.inr (Or.inr h1)
      · rintro (h1 | h1 | h1)
        · exact Or.inl h1
        · exact Or.inl (h1 ▸ he)
        · exact Or.inr h1
    · rw [if_neg he]
      simp only [List.map_cons, List.mem_cons, List.mem_append, List.mem_singleton]
      tauto

theorem insert_pairs_wf (es : List (Str × Option Str)) : ∀ (h : GHashTable), h.WF →
    (insert_pairs h es).WF := by
  induction es with
  | nil => intro h hw; exact hw
  | cons e es ih => intro h hw; exact ih _ (insert_wf _ _ _ hw)

theorem some_keys (es : List (Str × Str)) :
    (es.map (fun e => (e.1, some e.2))).map Prod.fst = es.map Prod.fst := by
  rw [List.map_map]
  rfl

theorem insert_all_nil (h : GHashTable) : insert_all h [] = h := rfl

theorem insert_all_cons (h : GHashTable) (e : Str × Str) (es : List (Str × Str)) :
    insert_all h (e :: es) = insert_all (g_hash_table_insert h e.1 (some e.2)) es := rfl

theorem lookup_insert_all_of_not_mem (es : List (Str × Str)) (h : GHashTable) (k : Str)
    (hk : k ∉ es.map Prod.fst) :
    g_hash_table_lookup (insert_all h es) k = g_hash_table_lookup h k :=
  lookup_insert_pairs_of_not_mem _ h k (by rw [some_keys]; exact hk)

/-- The value found under a key is the one inserted last for it. -/
theorem lookup_insert_all_last (h : GHashTable) (pre post : List (Str × Str)) (k v : Str)
    (hk : k ∉ post.map Prod.fst) :
    g_hash_table_lookup (insert_all h (pre ++ (k, v) :: post)) k = some v := by
  unfold insert_all
  rw [List.map_append, List.map_cons]
  exact lookup_insert_pairs_last h _ _ k (some v) (by rw [some_keys]; exact hk)

theorem lookup_insert_all_mem (es : List (Str × Str)) (h : GHashTable) (k : Str)
    (hk : k ∈ es.map Prod.fst) :
    ∃ v, (k, v) ∈ es ∧ g_hash_table_lookup (insert_all h es) k = some v := by
  obtain ⟨v, hv, hl⟩ := lookup_insert_pairs_mem _ h k (by rw [some_keys]; exact hk)
  obtain ⟨e, he, hev⟩ := List.mem_map.1 hv
  cases hev
  exact ⟨e.2, he, hl⟩

theorem insert_all_keys (es : List (Str × Str)) (h : GHashTable) (k : Str) :
    k ∈ (insert_all h es).map Prod.fst ↔ k ∈ h.map Prod.fst ∨ k ∈ es.map Prod.fst := by
  unfold insert_all
  rw [insert_pairs_keys, some_keys]

theorem insert_all_wf (es : List (Str × Str)) (h : GHashTable) (hw : h.WF) :
    (insert_all h es).WF :=
  insert_pairs_wf _ h hw

/-- The traversal inserts the entries of the visited nodes when all their keys fit the
buffer of `to_hash`. -/
theorem traverse_to_hash_eq (root : GNode) (nodes : List NodePtr) :
    ∀ priv : IpcamConfigManagerPrivate,
      (∀ n ∈ nodes, (to_hash_entry root n).1.length < PATH_MAX) →
      traverse_to_hash root nodes priv =
        some ⟨priv.key, insert_all priv.conf_hash (nodes.map (to_hash_entry root)),
          priv.collection⟩ := by
  induction nodes with
  | nil => intro priv _; rfl
  | cons n ns ih =>
    intro priv hfit
    simp only [traverse_to_hash, to_hash_eq, hfit n (List.mem_cons_self _ _), if_true]
    rw [ih _ (fun m hm => hfit m (List.mem_cons_of_mem _ hm))]
    rfl

/-- A traversal that returns has met only keys that fit. -/
theorem traverse_to_hash_fits (root : GNode) (nodes : List NodePtr) :
    ∀ priv priv' : IpcamConfigManagerPrivate,
      traverse_to_hash root nodes priv = some priv' →
      ∀ n ∈ nodes, (to_hash_entry root n).1.length < PATH_MAX := by
  induction nodes with
  | nil => intro priv priv' _ n hn; cases hn
  | cons m ns ih =>
    intro priv priv' h n hn
    simp only [traverse_to_hash, to_hash_eq] at h
    by_cases hf : (to_hash_entry root m).1.length < PATH_MAX
    · simp only [hf, if_true] at h
      rcases List.mem_cons.1 hn with hn | hn
      · rw [hn]; exact hf
      · exact ih _ _ h n hn
    · simp only [hf, if_false] at h
      cases h

theorem flatten_fits_iff (cfg : GNode) :
    (∀ e ∈ flatten_entries cfg, e.1.length < PATH_MAX) ↔
      ∀ n ∈ g_node_traverse_leaves cfg, (to_hash_entry cfg n).1.length < PATH_MAX := by
  simp only [flatten_entries, List.mem_map, forall_exists_index, and_imp,
    forall_apply_eq_imp_iff₂]

/-- What `load_config` does once the builder has returned the tree `cfg`, when the keys
of all leaves fit the buffer of `to_hash`. -/
theorem load_config_eq (priv : IpcamConfigManagerPrivate) (source rest : yaml_parser_t)
    (cfg : GNode)
    (h : process_layer (source.length + 1) source (g_node_new "config".toList) [] =
      some (rest, cfg))
    (hfit : ∀ e ∈ flatten_entries cfg, e.1.length < PATH_MAX) :
    ipcam_config_manager_load_config priv (some source) =
      some (true, ⟨priv.key, insert_all priv.conf_hash (flatten_entries cfg),
        priv.collection⟩) := by
  simp only [ipcam_config_manager_load_config, h,
    traverse_to_hash_eq cfg _ priv ((flatten_fits_iff cfg).1 hfit), flatten_entries]

/-- A load that returns has built a tree, all keys of which fit, and has inserted its
entries. -/
theorem load_config_inv (priv priv' : IpcamConfigManagerPrivate) (source : yaml_parser_t)
    (ret : Bool) (h : ipcam_config_manager_load_config priv (some source) = some (ret, priv')) :
    ∃ rest cfg,
      process_layer (source.length + 1) source (g_node_new "config".toList) [] =
        some (rest, cfg) ∧
      ret = true ∧
      (∀ e ∈ flatten_entries cfg, e.1.length < PATH_MAX) ∧
      priv' = ⟨priv.key, insert_all priv.conf_hash (flatten_entries cfg), priv.collection⟩ := by
  cases hp : process_layer (source.length + 1) source (g_node_new "config".toList) [] with
  | none =>
    simp only [ipcam_config_manager_load_config, hp] at h
    cases h
  | some res =>
    obtain ⟨rest, cfg⟩ := res
    cases ht : traverse_to_hash cfg (g_node_traverse_leaves cfg) priv with
    | none =>
      simp only [ipcam_config_manager_load_config, hp, ht] at h
      cases h
    | some p =>
      have hfit := (flatten_fits_iff cfg).2 (traverse_to_hash_fits cfg _ priv p ht)
      rw [load_config_eq priv source rest cfg hp hfit] at h
      cases h
      exact ⟨rest, cfg, rfl, rfl, hfit, rfl⟩

/-- A load of an opened file returns only when the builder returns. -/
theorem load_config_none (priv : IpcamConfigManagerPrivate) (source : yaml_parser_t)
    (h : process_layer (source.length + 1) source (g_node_new "config".toList) [] = none) :
    ipcam_config_manager_load_config priv (some source) = none := by
  simp only [ipcam_config_manager_load_config, h]

/-! ## Documents of nested mappings -/

theorem nodes_ne_nil (m : Mapping) (h : m.is_empty = false) : m.nodes ≠ [] := by
  cases m <;> simp [Mapping.is_empty, Mapping.nodes] at h ⊢

theorem flat_children_nodes (m : Mapping) : ∀ (anc : List Str), m.scalar_leaved = true →
    flat_children anc m.nodes = m.leaves.map (fun l => (l.1.reverse ++ anc, l.2)) := by
  induction m with
  | nil => intro anc _; simp [Mapping.nodes, Mapping.leaves, flat_children]
  | scalar k v rest ih =>
    intro anc h
    simp only [Mapping.scalar_leaved] at h
    simp [Mapping.nodes, Mapping.leaves, flat_children, flat_node, ih anc h]
  | nested k body rest ihb ihr =>
    intro anc h
    simp only [Mapping.scalar_leaved, Bool.and_eq_true, Bool.not_eq_eq_eq_not,
      Bool.not_true] at h
    obtain ⟨⟨hne, hb⟩, hr⟩ := h
    simp only [Mapping.nodes, Mapping.leaves, flat_children, List.map_append, List.map_map]
    rw [flat_node_cons _ _ _ (nodes_ne_nil body hne), ihb _ hb, ihr _ hr]
    simp [Function.comp_def]

theorem leaves_path_ne_nil (m : Mapping) : ∀ l ∈ m.leaves, l.1 ≠ [] := by
  induction m with
  | nil => intro l hl; simp [Mapping.leaves] at hl
  | scalar k v rest ih =>
    intro l hl
    simp only [Mapping.leaves, List.mem_cons] at hl
    rcases hl with hl | hl
    · subst hl; simp
    · exact ih l hl
  | nested k body rest _ ihr =>
    intro l hl
    simp only [Mapping.leaves, List.mem_append, List.mem_map] at hl
    rcases hl with ⟨l', _, hl⟩ | hl
    · subst hl; simp
    · exact ihr l hl

theorem colon_join_config (ks : List Str) (h : ks ≠ []) :
    colon_join ("config".toList :: ks) = config_key (colon_join ks) := by
  rw [colon_join_cons, if_neg h]
  rfl

/-- The entries that the load of a document inserts: one per scalar leaf, in document
order, under `config:` followed by the colon-joined key path. -/
theorem flatten_entries_document (m : Mapping) (hs : m.scalar_leaved = true)
    (hne : m.is_empty = false) :
    flatten_entries (.mk "config".toList m.nodes) =
      m.leaves.map (fun l => (config_key (colon_join l.1), l.2)) := by
  rw [flatten_entries_eq, flat_node_cons _ _ _ (nodes_ne_nil m hne), flat_children_nodes _ _ hs,
    List.map_map]
  apply List.map_congr_left
  intro l hl
  simp only [Function.comp, List.reverse_append, List.reverse_cons, List.reverse_nil,
    List.nil_append, List.reverse_reverse, List.singleton_append]
  rw [colon_join_config _ (leaves_path_ne_nil m l hl)]


/-- C1: for a document of nested mappings in which every branch ends in a scalar, given
as its event stream, and a leaf `(path, value)` of it such that no other leaf has the same
colon-joined path: whenever the load into a manager returns, it returns `TRUE` and
afterwards `get` of the colon-joined path returns the value; and the load does return
when the key of every leaf fits the key buffer. -/
theorem flatten_round_trip (m : Mapping) (hs : m.scalar_leaved = true)
    (priv : IpcamConfigManagerPrivate) (before after : List (List Str × Str))
    (path : List Str) (value : Str)
    (hleaf : m.leaves = before ++ (path, value) :: after)
    (huniq : ∀ l ∈ before ++ after, colon_join l.1 ≠ colon_join path) :
    ((∀ l ∈ m.leaves, (config_key (colon_join l.1)).length < PATH_MAX) →
      ∃ priv', ipcam_config_manager_load_config priv (some m.document_events) =
        some (true, priv')) ∧
    (∀ ret priv', ipcam_config_manager_load_config priv (some m.document_events) =
        some (ret, priv') →
      ret = true ∧
      ∃ p, ipcam_config_manager_get priv' (colon_join path) = some (some value, p)) := by
  have hne : m.is_empty = false := by
    cases m with
    | nil => simp [Mapping.leaves] at hleaf
    | scalar _ _ _ => rfl
    | nested _ _ _ => rfl
  have hbuilt := process_layer_document m (m.document_events.length + 1) (by omega)
  have hflat := flatten_entries_document m hs hne
  constructor
  · intro hfit
    refine ⟨_, load_config_eq priv _ _ _ hbuilt ?_⟩
    intro e he
    rw [hflat] at he
    obtain ⟨l, hl, hel⟩ := List.mem_map.1 he
    rw [← hel]
    exact hfit l hl
  · intro ret priv' hload
    obtain ⟨rest, cfg, hb, hret, hfit, hp⟩ := load_config_inv priv priv' _ ret hload
    rw [hbuilt] at hb
    cases hb
    subst hp
    refine ⟨hret, ?_⟩
    have hkey : (config_key (colon_join path)).length < PATH_MAX := by
      apply hfit (config_key (colon_join path), value)
      rw [hflat, hleaf]
      exact List.mem_map.2 ⟨(path, value), by simp, rfl⟩
    have hlook : g_hash_table_lookup
        (insert_all priv.conf_hash (flatten_entries (.mk "config".toList m.nodes)))
        (config_key (colon_join path)) = some value := by
      rw [hflat, hleaf, List.map_append, List.map_cons]
      apply lookup_insert_all_last
      intro hmem
      simp only [List.map_map, List.mem_map, Function.comp] at hmem
      obtain ⟨l, hl, hk⟩ := hmem
      have hk' : colon_join l.1 = colon_join path := by
        simpa [config_key] using hk
      exact huniq l (List.mem_append_right _ hl) hk'
    rw [get_eq _ _ hkey]
    exact ⟨_, by rw [← hlook]⟩

/-- C1, on `{a: {b: "1", c: "2"}}`: the load returns, and after it `get a:b` is `1` and
`get a:c` is `2`. -/
theorem flatten_round_trip_witness :
    mapping_a_b_c.document_events = events_a_b_c ∧
    (∃ priv', ipcam_config_manager_load_config ipcam_config_manager_init
        (some mapping_a_b_c.document_events) = some (true, priv')) ∧
    (∃ p, ipcam_config_manager_get
        ⟨[], [("config:a:b".toList, some "1".toList), ("config:a:c".toList, some "2".toList)],
          []⟩ "a:b".toList = some (some "1".toList, p)) ∧
    (∃ p, ipcam_config_manager_get
        ⟨[], [("config:a:b".toList, some "1".toList), ("config:a:c".toList, some "2".toList)],
          []⟩ "a:c".toList = some (some "2".toList, p)) :=
  ⟨by decide,
   (flatten_round_trip mapping_a_b_c (by decide) ipcam_config_manager_init []
     [(["a".toList, "c".toList], "2".toList)] ["a".toList, "b".toList] "1".toList
     (by decide) (by decide)).1 (by decide),
   ((flatten_round_trip mapping_a_b_c (by decide) ipcam_config_manager_init []
     [(["a".toList, "c".toList], "2".toList)] ["a".toList, "b".toList] "1".toList
     (by decide) (by decide)).2 true _ (by decide)).2,
   ((flatten_round_trip mapping_a_b_c (by decide) ipcam_config_manager_init
     [(["a".toList, "b".toList], "1".toList)] [] ["a".toList, "c".toList] "2".toList
     (by decide) (by decide)).2 true _ (by decide)).2⟩

/-! ## The accessors -/

/-- C3 (as amended): for a name that fits the key buffer, `merge` returns; when the
store holds the key, `get` afterwards returns what the store held under it, and when it
does not, `get` returns the merged value, also after a second merge of the same name. -/
theorem merge_first_write_wins (priv : IpcamConfigManagerPrivate) (conf_name : Str)
    (conf_value : Option Str) (hfit : (config_key conf_name).length < PATH_MAX) :
    ∃ merged, ipcam_config_manager_merge priv conf_name conf_value = some merged ∧
      (g_hash_table_contains priv.conf_hash (config_key conf_name) = true →
        ∃ p, ipcam_config_manager_get merged conf_name =
          some (g_hash_table_lookup priv.conf_hash (config_key conf_name), p)) ∧
      (g_hash_table_contains priv.conf_hash (config_key conf_name) = false →
        ∃ p, ipcam_config_manager_get merged conf_name = some (conf_value, p)) ∧
      (g_hash_table_contains priv.conf_hash (config_key conf_name) = false →
        ∀ v2, ∃ merged2 p,
          ipcam_config_manager_merge merged conf_name v2 = some merged2 ∧
          ipcam_config_manager_get merged2 conf_name = some (conf_value, p)) := by
  refine ⟨_, merge_eq priv conf_name conf_value hfit, ?_, ?_, ?_⟩
  · intro hc
    rw [get_eq _ _ hfit]
    simp only [hc, if_true]
    exact ⟨_, rfl⟩
  · intro hc
    rw [get_eq _ _ hfit]
    simp only [hc, Bool.false_eq_true, if_false, lookup_insert_self]
    exact ⟨_, rfl⟩
  · intro hc v2
    have hin : g_hash_table_contains
        (g_hash_table_insert priv.conf_hash (config_key conf_name) conf_value)
        (config_key conf_name) = true := by
      rw [contains_iff_mem_keys, insert_keys]
      split
      · assumption
      · simp
    obtain ⟨merged2, hm2⟩ : ∃ merged2, ipcam_config_manager_merge
        ⟨config_key conf_name,
          if g_hash_table_contains priv.conf_hash (config_key conf_name) then priv.conf_hash
          else g_hash_table_insert priv.conf_hash (config_key conf_name) conf_value,
          priv.collection⟩ conf_name v2 = some merged2 := ⟨_, merge_eq _ conf_name v2 hfit⟩
    obtain ⟨-, heq⟩ := merge_inv _ _ _ _ hm2
    refine ⟨merged2, ⟨config_key conf_name, merged2.conf_hash, merged2.collection⟩, hm2, ?_⟩
    rw [get_eq _ _ hfit, heq]
    simp only [hc, Bool.false_eq_true, if_false, hin, if_true, lookup_insert_self]

/-- C3 (as amended), on the empty manager: `merge x 1` then `merge x 2` leaves
`get x = 1`. -/
theorem merge_first_write_wins_witness :
    ∃ merged2 p,
      ipcam_config_manager_merge ⟨"config:x".toList, [("config:x".toList, some "1".toList)], []⟩
        "x".toList (some "2".toList) = some merged2 ∧
      ipcam_config_manager_get merged2 "x".toList = some (some "1".toList, p) := by
  obtain ⟨merged, hm, -, -, h3⟩ :=
    merge_first_write_wins ipcam_config_manager_init "x".toList (some "1".toList) (by decide)
  have h0 : ipcam_config_manager_merge ipcam_config_manager_init "x".toList
      (some "1".toList) =
      some ⟨"config:x".toList, [("config:x".toList, some "1".toList)], []⟩ := by decide
  rw [h0] at hm
  cases hm
  exact h3 (by decide) (some "2".toList)

/-- C3 refuted: for a name of 4089 characters the key with its terminator needs 4097
bytes, `sprintf` overruns the buffer of `PATH_MAX` bytes, and neither `merge` nor `get`
has a defined result. -/
theorem merge_long_name_overruns :
    PATH_MAX ≤ (config_key long_name).length ∧
    ipcam_config_manager_merge ipcam_config_manager_init long_name (some "1".toList) = none ∧
    ipcam_config_manager_get ipcam_config_manager_init long_name = none := by
  refine ⟨long_name_overrun, ?_, ?_⟩
  · simp only [ipcam_config_manager_merge, sprintf_config_overrun _ long_name_overrun]
  · simp only [ipcam_config_manager_get, sprintf_config_overrun _ long_name_overrun]

/-- C4 (as amended): for a store with unique keys and a name that fits the key buffer,
`get` returns, and it returns the pointer that the store holds under `config:` followed
by the name, `NULL` when the store has no such key; so the result is `NULL` exactly when
the key is missing or bound to `NULL`. -/
theorem get_exact_lookup (priv : IpcamConfigManagerPrivate) (conf_name : Str)
    (hwf : priv.conf_hash.WF) (hfit : (config_key conf_name).length < PATH_MAX) :
    ∃ ret p, ipcam_config_manager_get priv conf_name = some (ret, p) ∧
      (∀ v, (config_key conf_name, v) ∈ priv.conf_hash → ret = v) ∧
      (config_key conf_name ∉ priv.conf_hash.map Prod.fst → ret = none) ∧
      (ret = none ↔ config_key conf_name ∉ priv.conf_hash.map Prod.fst ∨
        (config_key conf_name, none) ∈ priv.conf_hash) := by
  refine ⟨_, _, get_eq priv conf_name hfit, fun v hv => lookup_eq_of_mem _ hwf _ _ hv,
    fun hk => lookup_of_not_mem_keys _ _ hk, ?_⟩
  constructor
  · intro hnone
    by_cases hk : config_key conf_name ∈ priv.conf_hash.map Prod.fst
    · obtain ⟨⟨k, v⟩, hmem, hkk⟩ := List.mem_map.1 hk
      simp only at hkk
      subst hkk
      rw [lookup_eq_of_mem _ hwf _ _ hmem] at hnone
      subst hnone
      exact Or.inr hmem
    · exact Or.inl hk
  · rintro (hk | hm)
    · exact lookup_of_not_mem_keys _ _ hk
    · exact lookup_eq_of_mem _ hwf _ _ hm

/-- C4 (as amended), on the three-entry store: a stored name is found, a missing one
gives `NULL`. -/
theorem get_exact_lookup_witness :
    (∃ p, ipcam_config_manager_get priv_net "net:eth1:ip".toList =
      some (some "10.0.0.2".toList, p)) ∧
    (∃ p, ipcam_config_manager_get priv_net "nonexistent".toList = some (none, p)) := by
  constructor
  · obtain ⟨ret, p, hg, h1, -, -⟩ :=
      get_exact_lookup priv_net "net:eth1:ip".toList (by decide) (by decide)
    rw [h1 (some "10.0.0.2".toList) (by decide)] at hg
    exact ⟨p, hg⟩
  · obtain ⟨ret, p, hg, -, h2, -⟩ :=
      get_exact_lookup priv_net "nonexistent".toList (by decide) (by decide)
    rw [h2 (by decide)] at hg
    exact ⟨p, hg⟩

/-- C4 refuted: after `merge x NULL` the store holds the key `config:x`, bound to `NULL`,
and `get x` returns `NULL` although the key is in the store; and for a name of 4089
characters `get` overruns the key buffer. -/
theorem get_null_for_present_key :
    ipcam_config_manager_merge ipcam_config_manager_init "x".toList none =
      some ⟨"config:x".toList, [("config:x".toList, none)], []⟩ ∧
    ipcam_config_manager_get ⟨"config:x".toList, [("config:x".toList, none)], []⟩ "x".toList =
      some (none, ⟨"config:x".toList, [("config:x".toList, none)], []⟩) ∧
    g_hash_table_contains [("config:x".toList, none)] "config:x".toList = true ∧
    ipcam_config_manager_get priv_net long_name = none := by
  refine ⟨by decide, by decide, by decide, ?_⟩
  simp only [ipcam_config_manager_get, sprintf_config_overrun _ long_name_overrun]

/-! ## The collection buffer -/

theorem get_collection_eq (priv : IpcamConfigManagerPrivate) (conf_name : Str)
    (hfit : (config_key conf_name).length < PATH_MAX) :
    ipcam_config_manager_get_collection priv conf_name =
      (g_hash_table_foreach priv.conf_hash (generate_collection (config_key conf_name))
        []).map (fun c => ⟨config_key conf_name, priv.conf_hash, c⟩) := by
  simp only [ipcam_config_manager_get_collection, g_hash_table_remove_all,
    sprintf_config_fits _ hfit]
  cases hf : g_hash_table_foreach priv.conf_hash
    (generate_collection (config_key conf_name)) [] <;> rfl

theorem get_collection_overrun (priv : IpcamConfigManagerPrivate) (conf_name : Str)
    (h : PATH_MAX ≤ (config_key conf_name).length) :
    ipcam_config_manager_get_collection priv conf_name = none := by
  simp only [ipcam_config_manager_get_collection, sprintf_config_overrun _ h]

theorem get_collection_store (priv priv' : IpcamConfigManagerPrivate) (conf_name : Str)
    (h : ipcam_config_manager_get_collection priv conf_name = some priv') :
    priv'.conf_hash = priv.conf_hash := by
  by_cases hfit : (config_key conf_name).length < PATH_MAX
  · rw [get_collection_eq _ _ hfit] at h
    cases hf : g_hash_table_foreach priv.conf_hash
        (generate_collection (config_key conf_name)) [] with
    | none => rw [hf] at h; cases h
    | some c => rw [hf] at h; cases h; rfl
  · rw [get_collection_overrun _ _ (Nat.not_lt.1 hfit)] at h
    cases h

theorem get_collection_congr (p q : IpcamConfigManagerPrivate) (conf_name : Str)
    (h : p.conf_hash = q.conf_hash) :
    (ipcam_config_manager_get_collection p conf_name).map (fun r => r.collection) =
      (ipcam_config_manager_get_collection q conf_name).map (fun r => r.collection) := by
  by_cases hfit : (config_key conf_name).length < PATH_MAX
  · rw [get_collection_eq _ _ hfit, get_collection_eq _ _ hfit, h]
  · rw [get_collection_overrun _ _ (Nat.not_lt.1 hfit),
      get_collection_overrun _ _ (Nat.not_lt.1 hfit)]

/-- The scan reads inside every key when no key of the table is the bare prefix. -/
theorem foreach_generate_some (pre : Str) : ∀ (h coll : GHashTable),
    pre ∉ h.map Prod.fst →
    ∃ c, g_hash_table_foreach h (generate_collection pre) coll = some c := by
  intro h
  induction h with
  | nil => intro coll _; exact ⟨coll, rfl⟩
  | cons e t ih =>
    intro coll hk
    obtain ⟨k, v⟩ := e
    simp only [List.map_cons, List.mem_cons, not_or] at hk
    simp only [g_hash_table_foreach, generate_collection]
    by_cases hp : g_str_has_prefix k pre = true
    · have hlen : pre.length < k.length := by
        have hpre : pre <+: k := List.isPrefixOf_iff_prefix.1 hp
        obtain ⟨s, hs⟩ := hpre
        cases s with
        | nil => exact absurd (by simpa using hs) hk.1
        | cons a s => rw [← hs]; simp
      simp only [hp, hlen, if_true]
      exact ih _ hk.2
    · have hf : g_str_has_prefix k pre = false := by simpa using hp
      simp only [hf, Bool.false_eq_true, if_false]
      exact ih _ hk.2

theorem get_collection_some (priv : IpcamConfigManagerPrivate) (conf_name : Str)
    (hfit : (config_key conf_name).length < PATH_MAX)
    (hbare : config_key conf_name ∉ priv.conf_hash.map Prod.fst) :
    ∃ priv', ipcam_config_manager_get_collection priv conf_name = some priv' := by
  obtain ⟨c, hc⟩ := foreach_generate_some (config_key conf_name) priv.conf_hash [] hbare
  rw [get_collection_eq _ _ hfit, hc]
  exact ⟨_, rfl⟩

/-- C9 (as amended): for a name that fits the key buffer and a store none of whose keys
is `config:` followed by just the name, `get_collection` returns a table that the store
and the name determine: the former content of the key and collection buffers has no
influence, a second call with the same name returns an equal table, and so does a call
after one for another name. -/
theorem get_collection_ignores_buffer (priv : IpcamConfigManagerPrivate) (conf_name : Str)
    (hfit : (config_key conf_name).length < PATH_MAX)
    (hbare : config_key conf_name ∉ priv.conf_hash.map Prod.fst) :
    ∃ first, ipcam_config_manager_get_collection priv conf_name = some first ∧
      (∀ old_key old_collection,
        (ipcam_config_manager_get_collection ⟨old_key, priv.conf_hash, old_collection⟩
            conf_name).map (fun r => r.collection) = some first.collection) ∧
      (ipcam_config_manager_get_collection first conf_name).map (fun r => r.collection) =
        some first.collection ∧
      (∀ other_name between,
        ipcam_config_manager_get_collection priv other_name = some between →
        (ipcam_config_manager_get_collection between conf_name).map (fun r => r.collection) =
          some first.collection) := by
  obtain ⟨first, hfirst⟩ := get_collection_some priv conf_name hfit hbare
  have hres : (ipcam_config_manager_get_collection priv conf_name).map
      (fun r => r.collection) = some first.collection := by rw [hfirst]; rfl
  refine ⟨first, hfirst, ?_, ?_, ?_⟩
  · intro old_key old_collection
    rw [get_collection_congr ⟨old_key, priv.conf_hash, old_collection⟩ priv conf_name rfl,
      hres]
  · rw [get_collection_congr first priv conf_name (get_collection_store _ _ _ hfirst), hres]
  · intro other_name between h
    rw [get_collection_congr between priv conf_name (get_collection_store _ _ _ h), hres]

/-- C9 (as amended), on the three-entry store: `net:eth0` asked twice, and asked after
`net:eth1`, gives the table with `ip` and `mask` each time. -/
theorem get_collection_ignores_buffer_witness :
    (ipcam_config_manager_get_collection
        ⟨"config:net:eth1".toList, priv_net.conf_hash, [("ip".toList, some "10.0.0.2".toList)]⟩
        "net:eth0".toList).map (fun r => r.collection) =
      some [("ip".toList, some "10.0.0.1".toList), ("mask".toList, some "255.255.255.0".toList)] := by
  obtain ⟨first, hfirst, h1, -, -⟩ :=
    get_collection_ignores_buffer priv_net "net:eth0".toList (by decide) (by decide)
  have h0 : ipcam_config_manager_get_collection priv_net "net:eth0".toList =
      some ⟨"config:net:eth0".toList, priv_net.conf_hash,
        [("ip".toList, some "10.0.0.1".toList),
         ("mask".toList, some "255.255.255.0".toList)]⟩ := by decide
  rw [h0] at hfirst
  cases hfirst
  exact h1 _ _

/-- C9 refuted: when the store holds the key `config:net` itself, `get_collection` for
the name `net` takes `key + strlen(prefix) + 1`, which lies past the terminator of the
key, so that the collection key is read from memory that does not belong to the store;
and for a name of 4089 characters the key buffer is overrun. In neither case is the
result determined by the store and the name. -/
theorem get_collection_reads_past_key :
    g_str_has_prefix "config:net".toList (config_key "net".toList) = true ∧
    generate_collection (config_key "net".toList) "config:net".toList (some "v".toList) [] =
      none ∧
    ipcam_config_manager_get_collection
      ⟨[], [("config:net".toList, some "v".toList)], []⟩ "net".toList = none ∧
    ipcam_config_manager_get_collection priv_net long_name = none :=
  ⟨by decide, by decide, by decide, get_collection_overrun _ _ long_name_overrun⟩

/-- C2: with the single entry `config:net:eth0:ip` stored, `get_collection` for the name
`net:eth` returns the one-entry table `:ip`, although no key of the store starts with
`config:net:eth:`; the key matched because `config:net:eth` is a prefix of it, and the
character `0` was skipped as if it were the separator. -/
theorem get_collection_takes_foreign_key :
    (ipcam_config_manager_get_collection
        ⟨[], [("config:net:eth0:ip".toList, some "10.0.0.1".toList)], []⟩
        "net:eth".toList).map (fun r => r.collection) =
      some [(":ip".toList, some "10.0.0.1".toList)] ∧
    g_str_has_prefix "config:net:eth0:ip".toList (config_key "net:eth".toList ++ [':']) =
      false ∧
    (ipcam_config_manager_get_collection priv_net "net:eth0".toList).map
        (fun r => r.collection) =
      some [("ip".toList, some "10.0.0.1".toList),
        ("mask".toList, some "255.255.255.0".toList)] := by
  decide

/-- C7: for `{a: {list: [x, y, z]}}` the builder returns, with no event left, the tree in
which `list` has the single child `x`, `x` has the single child `y` and `y` has the single
child `z`: the elements form a chain and only `z` is a leaf. -/
theorem sequence_elements_are_chained :
    process_layer (events_a_list.length + 1) events_a_list (g_node_new "config".toList) [] =
      some ([], .mk "config".toList [.mk "a".toList [.mk "list".toList
        [.mk "x".toList [.mk "y".toList [.mk "z".toList []]]]]]) ∧
    g_node_traverse_leaves (.mk "config".toList [.mk "a".toList [.mk "list".toList
        [.mk "x".toList [.mk "y".toList [.mk "z".toList []]]]]]) = [[0, 0, 0, 0, 0]] ∧
    (ipcam_config_manager_load_config ipcam_config_manager_init (some events_a_list)).map
        (fun r => r.2.conf_hash) =
      some [("config:a:list:x:y".toList, some "z".toList)] :=
  ⟨rfl, rfl, by decide⟩

/-! ## Reloading -/

theorem mem_insert_of_ne (h : GHashTable) (k : Str) (v : Option Str) (e : Str × Option Str)
    (he : e ∈ h) (hne : e.1 ≠ k) : e ∈ g_hash_table_insert h k v := by
  induction h with
  | nil => cases he
  | cons e0 t ih =>
    obtain ⟨k0, v0⟩ := e0
    by_cases hk : k0 = k
    · subst hk
      simp only [g_hash_table_insert, if_true]
      rcases List.mem_cons.1 he with he | he
      · subst he
        exact absurd rfl hne
      · exact List.mem_cons_of_mem _ he
    · simp only [g_hash_table_insert, hk, if_false]
      rcases List.mem_cons.1 he with he | he
      · subst he
        exact List.mem_cons_self _ _
      · exact List.mem_cons_of_mem _ (ih he)

theorem mem_insert_all_of_not_mem (es : List (Str × Str)) : ∀ (h : GHashTable)
    (e : Str × Option Str), e ∈ h → e.1 ∉ es.map Prod.fst → e ∈ insert_all h es := by
  induction es with
  | nil => intro h e he _; exact he
  | cons x es ih =>
    intro h e he hk
    simp only [List.map_cons, List.mem_cons, not_or] at hk
    rw [insert_all_cons]
    exact ih _ e (mem_insert_of_ne h x.1 (some x.2) e he hk.1) hk.2

/-- C6 (as amended): when a load returns, the builder has returned a tree; every key
that no leaf of this tree produces has after the load exactly the binding, or the
absence of one, that it had before; every key that a leaf produces is bound to a value
that a leaf produces for it; the store holds no other keys; and every entry of the store
before the load whose key no leaf produces is an entry of the store after it. -/
theorem load_keeps_other_entries (priv priv' : IpcamConfigManagerPrivate)
    (source : yaml_parser_t) (ret : Bool)
    (h : ipcam_config_manager_load_config priv (some source) = some (ret, priv')) :
    ∃ rest cfg,
      process_layer (source.length + 1) source (g_node_new "config".toList) [] =
        some (rest, cfg) ∧
      (∀ k, k ∉ (flatten_entries cfg).map Prod.fst →
        g_hash_table_lookup priv'.conf_hash k = g_hash_table_lookup priv.conf_hash k) ∧
      (∀ k, k ∈ (flatten_entries cfg).map Prod.fst →
        ∃ v, (k, v) ∈ flatten_entries cfg ∧ g_hash_table_lookup priv'.conf_hash k = some v) ∧
      (∀ k, k ∈ priv'.conf_hash.map Prod.fst ↔
        k ∈ priv.conf_hash.map Prod.fst ∨ k ∈ (flatten_entries cfg).map Prod.fst) ∧
      (∀ e, e ∈ priv.conf_hash → e.1 ∉ (flatten_entries cfg).map Prod.fst →
        e ∈ priv'.conf_hash) := by
  obtain ⟨rest, cfg, hb, _, _, hp⟩ := load_config_inv priv priv' source ret h
  subst hp
  exact ⟨rest, cfg, hb, fun k hk => lookup_insert_all_of_not_mem _ _ _ hk,
    fun k hk => lookup_insert_all_mem _ _ _ hk, fun k => insert_all_keys _ _ _,
    fun e he hk => mem_insert_all_of_not_mem _ _ _ he hk⟩

/-- C6 (as amended), after `merge x 1`: the load of `{a: {b: "1", c: "2"}}` leaves `x`. -/
theorem load_keeps_other_entries_witness :
    ∃ rest cfg,
      process_layer (events_a_b_c.length + 1) events_a_b_c (g_node_new "config".toList) [] =
        some (rest, cfg) ∧
      (∀ k, k ∉ (flatten_entries cfg).map Prod.fst →
        g_hash_table_lookup
            (⟨"config:x".toList,
              [("config:x".toList, some "1".toList), ("config:a:b".toList, some "1".toList),
               ("config:a:c".toList, some "2".toList)], []⟩ :
              IpcamConfigManagerPrivate).conf_hash k =
          g_hash_table_lookup
            (⟨"config:x".toList, [("config:x".toList, some "1".toList)], []⟩ :
              IpcamConfigManagerPrivate).conf_hash k) ∧
      (∀ k, k ∈ (flatten_entries cfg).map Prod.fst →
        ∃ v, (k, v) ∈ flatten_entries cfg ∧
          g_hash_table_lookup
            (⟨"config:x".toList,
              [("config:x".toList, some "1".toList), ("config:a:b".toList, some "1".toList),
               ("config:a:c".toList, some "2".toList)], []⟩ :
              IpcamConfigManagerPrivate).conf_hash k =
            some v) ∧
      (∀ k, k ∈ (⟨"config:x".toList,
              [("config:x".toList, some "1".toList), ("config:a:b".toList, some "1".toList),
               ("config:a:c".toList, some "2".toList)], []⟩ :
              IpcamConfigManagerPrivate).conf_hash.map Prod.fst ↔
        k ∈ (⟨"config:x".toList, [("config:x".toList, some "1".toList)], []⟩ :
              IpcamConfigManagerPrivate).conf_hash.map Prod.fst ∨
          k ∈ (flatten_entries cfg).map Prod.fst) ∧
      (∀ e, e ∈ (⟨"config:x".toList, [("config:x".toList, some "1".toList)], []⟩ :
              IpcamConfigManagerPrivate).conf_hash →
        e.1 ∉ (flatten_entries cfg).map Prod.fst →
        e ∈ (⟨"config:x".toList,
              [("config:x".toList, some "1".toList), ("config:a:b".toList, some "1".toList),
               ("config:a:c".toList, some "2".toList)], []⟩ :
              IpcamConfigManagerPrivate).conf_hash) :=
  load_keeps_other_entries
    ⟨"config:x".toList, [("config:x".toList, some "1".toList)], []⟩ _
    events_a_b_c true (by decide)

/-- C6 refuted: after `merge x 1`, the load of `{a: {b: "1", c: "2"}}` returns `TRUE`
and the store still binds `config:x`, which is no entry of the flattened document. -/
theorem reload_keeps_stale_entry :
    ipcam_config_manager_merge ipcam_config_manager_init "x".toList (some "1".toList) =
      some ⟨"config:x".toList, [("config:x".toList, some "1".toList)], []⟩ ∧
    ipcam_config_manager_load_config
        ⟨"config:x".toList, [("config:x".toList, some "1".toList)], []⟩
        (some events_a_b_c) =
      some (true, ⟨"config:x".toList,
        [("config:x".toList, some "1".toList), ("config:a:b".toList, some "1".toList),
         ("config:a:c".toList, some "2".toList)], []⟩) ∧
    process_layer (events_a_b_c.length + 1) events_a_b_c (g_node_new "config".toList) [] =
      some ([], tree_a_b_c) ∧
    flatten_entries tree_a_b_c =
      [("config:a:b".toList, "1".toList), ("config:a:c".toList, "2".toList)] ∧
    ("config:x".toList, "1".toList) ∉ flatten_entries tree_a_b_c :=
  ⟨by decide, by decide, rfl, by decide, by decide⟩

/-! ## The composed key -/

theorem appendAt_data (path : List Nat) (t x : GNode) : (t.appendAt path x).data = t.data := by
  rw [appendAt_eq_graftAt, graftAt_data]

/-- The builder never changes the label of the root. -/
theorem loop_root_data (fuel : Nat) :
    ∀ (parser : yaml_parser_t) (root : GNode) (data last_leaf : NodePtr) (storage : Nat)
      (rest : yaml_parser_t) (root' : GNode),
      process_layer_loop fuel parser root data last_leaf storage = some (rest, root') →
      root'.data = root.data := by
  induction fuel with
  | zero => intro parser root data ll st rest root' h; cases h
  | succ n ih =>
    intro parser root data ll st rest root' h
    cases parser with
    | nil => rw [loop_nil] at h; cases h
    | cons e r =>
      cases e with
      | YAML_SCALAR_EVENT value =>
        rw [loop_scalar] at h
        split at h
        · rw [ih _ _ _ _ _ _ _ h]; exact appendAt_data _ _ _
        · rw [ih _ _ _ _ _ _ _ h]; exact appendAt_data _ _ _
      | YAML_MAPPING_START_EVENT =>
        rw [loop_mapping_start] at h
        split at h
        · cases h
        · rename_i p1 root1 hnest
          rw [ih _ _ _ _ _ _ _ h, ih _ _ _ _ _ _ _ hnest]
      | YAML_MAPPING_END_EVENT => rw [loop_mapping_end] at h; cases h; rfl
      | YAML_STREAM_END_EVENT => rw [loop_stream_end] at h; cases h; rfl
      | YAML_SEQUENCE_START_EVENT => rw [loop_sequence_start] at h; exact ih _ _ _ _ _ _ _ h
      | YAML_SEQUENCE_END_EVENT => rw [loop_sequence_end] at h; exact ih _ _ _ _ _ _ _ h
      | YAML_NO_EVENT =>
        rw [loop_ignored _ _ (by simp [ignored_event])] at h; exact ih _ _ _ _ _ _ _ h
      | YAML_STREAM_START_EVENT =>
        rw [loop_ignored _ _ (by simp [ignored_event])] at h; exact ih _ _ _ _ _ _ _ h
      | YAML_DOCUMENT_START_EVENT =>
        rw [loop_ignored _ _ (by simp [ignored_event])] at h; exact ih _ _ _ _ _ _ _ h
      | YAML_DOCUMENT_END_EVENT =>
        rw [loop_ignored _ _ (by simp [ignored_event])] at h; exact ih _ _ _ _ _ _ _ h
      | YAML_ALIAS_EVENT =>
        rw [loop_ignored _ _ (by simp [ignored_event])] at h; exact ih _ _ _ _ _ _ _ h

theorem built_root_label (fuel : Nat) (source rest : yaml_parser_t) (cfg : GNode)
    (h : process_layer fuel source (g_node_new "config".toList) [] = some (rest, cfg)) :
    node_data cfg [] = "config".toList := by
  rw [node_data_of_deref _ _ _ (deref_root cfg)]
  exact loop_root_data _ _ _ _ _ _ _ _ h

theorem to_hash_array_get (root : GNode) (node : NodePtr) : ∀ j, j < node.length →
    (to_hash_array root node)[j]? = some (node_data root (node.drop (j + 1))) := by
  induction node with
  | nil => intro j hj; simp at hj
  | cons i p ih =>
    intro j hj
    cases j with
    | zero => simp [to_hash_array]
    | succ j =>
      simp only [List.length_cons] at hj
      simpa [to_hash_array] using ih j (by omega)

/-- Every visited node is a node of the tree and has no children. -/
theorem traverse_leaves_deref (root : GNode) :
    (∀ n : GNode, ∀ q : NodePtr, root.deref q = some n →
      ∀ p ∈ traverse_leaves n q, ∃ label, root.deref p = some (.mk label [])) ∧
    (∀ cs : List GNode, ∀ (q : NodePtr) (d : Str) (pre : List GNode),
      root.deref q = some (.mk d (pre ++ cs)) →
      ∀ p ∈ traverse_children cs q pre.length, ∃ label, root.deref p = some (.mk label [])) := by
  apply gnode_induction
  · intro d cs hQ q h p hp
    cases cs with
    | nil =>
      simp only [traverse_leaves, List.mem_singleton] at hp
      subst hp
      exact ⟨d, h⟩
    | cons c cs =>
      rw [traverse_leaves_cons _ _ _ (by simp)] at hp
      exact hQ q d [] h p hp
  · intro q d pre _ p hp
    simp [traverse_children] at hp
  · intro c cs hP hQ q d pre h p hp
    simp only [traverse_children, List.mem_append] at hp
    rcases hp with hp | hp
    · exact hP (pre.length :: q) (deref_child _ _ _ _ _ _ h) p hp
    · have h' : root.deref q = some (.mk d ((pre ++ [c]) ++ cs)) := by simpa using h
      have := hQ q d (pre ++ [c]) h' p
      simp only [List.length_append, List.length_singleton] at this
      exact this hp

/-- The callback `to_hash` overruns its buffer when the joined key with its terminator
does not fit. -/
theorem to_hash_overrun (root : GNode) (node : NodePtr) (priv : IpcamConfigManagerPrivate)
    (h : PATH_MAX ≤ (to_hash_entry root node).1.length) : to_hash root node priv = none := by
  rw [to_hash_eq, if_neg (Nat.not_lt.2 h)]

theorem long_label_length : long_label.length = PATH_MAX := by
  unfold long_label
  rw [List.length_replicate]
  rfl

/-- C10 (as amended): for every leaf of a tree built by `process_layer`, the array of
`to_hash` holds the label of the `(j + 1)`-th ancestor at position `j`, its last position
holds the label `config` of the root; when the labels of all ancestors, the root first
and the parent last, joined with `:`, fit the key buffer with the terminator, `to_hash`
inserts the label of the leaf under this key, and whenever `to_hash` returns it has done
so. -/
theorem key_is_ancestor_path (fuel : Nat) (source rest : yaml_parser_t) (cfg : GNode)
    (hbuilt : process_layer fuel source (g_node_new "config".toList) [] = some (rest, cfg))
    (node : NodePtr) (hleaf : node ∈ g_node_traverse_leaves cfg)
    (priv : IpcamConfigManagerPrivate) :
    ((colon_join (to_hash_array cfg node).reverse).length < PATH_MAX →
      to_hash cfg node priv =
        some ⟨priv.key,
          g_hash_table_insert priv.conf_hash (colon_join (to_hash_array cfg node).reverse)
            (some (node_data cfg node)), priv.collection⟩) ∧
    (∀ priv', to_hash cfg node priv = some priv' →
      priv'.conf_hash =
        g_hash_table_insert priv.conf_hash (colon_join (to_hash_array cfg node).reverse)
          (some (node_data cfg node))) ∧
    (to_hash_array cfg node).length = node.length ∧
    (∀ j, j < node.length →
      (to_hash_array cfg node)[j]? = some (node_data cfg (node.drop (j + 1)))) ∧
    node_data cfg [] = "config".toList ∧
    ∃ label, cfg.deref node = some (.mk label []) ∧ node_data cfg node = label := by
  refine ⟨?_, ?_, to_hash_array_length _ _, to_hash_array_get _ _,
    built_root_label _ _ _ _ hbuilt, ?_⟩
  · intro hfit
    rw [to_hash_eq]
    simp only [to_hash_entry]
    rw [if_pos hfit]
  · intro priv' h
    rw [to_hash_eq] at h
    simp only [to_hash_entry] at h
    split at h
    · cases h; rfl
    · cases h
  · obtain ⟨label, hl⟩ := (traverse_leaves_deref cfg).1 cfg [] (deref_root cfg) node hleaf
    exact ⟨label, hl, node_data_of_deref _ _ _ hl⟩

/-- C10 (as amended), on the leaf `1` of `{a: {b: "1", c: "2"}}`: the key is
`config:a:b`. -/
theorem key_is_ancestor_path_witness :
    to_hash tree_a_b_c [0, 0, 0] ipcam_config_manager_init =
      some ⟨[], [("config:a:b".toList, some "1".toList)], []⟩ ∧
    to_hash_array tree_a_b_c [0, 0, 0] = ["b".toList, "a".toList, "config".toList] :=
  ⟨(key_is_ancestor_path (events_a_b_c.length + 1) events_a_b_c [] tree_a_b_c rfl [0, 0, 0]
      (by decide) ipcam_config_manager_init).1 (by decide),
   by decide⟩

/-- C10 refuted: for the leaf `1` of `{a: {b: "1", c: "2"}}` the ancestors are `b`, `a`
and the root `config`; `to_hash` inserts the key `config:a:b`, while the labels from the
parent up to but excluding the root, reversed and joined, give `a:b`. And for a leaf
below a key of 4096 characters the joined key does not fit the buffer of `to_hash`,
which is overrun instead of a key being inserted. -/
theorem key_without_root_refuted :
    process_layer (events_a_b_c.length + 1) events_a_b_c (g_node_new "config".toList) [] =
      some ([], tree_a_b_c) ∧
    [0, 0, 0] ∈ g_node_traverse_leaves tree_a_b_c ∧
    to_hash_array tree_a_b_c [0, 0, 0] = ["b".toList, "a".toList, "config".toList] ∧
    to_hash tree_a_b_c [0, 0, 0] ipcam_config_manager_init =
      some ⟨[], [("config:a:b".toList, some "1".toList)], []⟩ ∧
    colon_join (to_hash_array tree_a_b_c [0, 0, 0]).dropLast.reverse = "a:b".toList ∧
    (to_hash_entry tree_a_b_c [0, 0, 0]).1 ≠
      colon_join (to_hash_array tree_a_b_c [0, 0, 0]).dropLast.reverse ∧
    process_layer 4
        [YAML_SCALAR_EVENT long_label, YAML_SCALAR_EVENT "v".toList, YAML_STREAM_END_EVENT]
        (g_node_new "config".toList) [] =
      some ([], .mk "config".toList [.mk long_label [.mk "v".toList []]]) ∧
    g_node_traverse_leaves (.mk "config".toList [.mk long_label [.mk "v".toList []]]) =
      [[0, 0]] ∧
    to_hash (.mk "config".toList [.mk long_label [.mk "v".toList []]]) [0, 0]
      ipcam_config_manager_init = none := by
  refine ⟨rfl, by decide, by decide, by decide, by decide, by decide, rfl, rfl, ?_⟩
  apply to_hash_overrun
  show PATH_MAX ≤ ("config".toList ++ ':' :: long_label).length
  rw [List.length_append, List.length_cons, long_label_length]
  omega

/-! ## The keys of the store -/

theorem to_hash_array_reverse (root : GNode) (node : NodePtr) (h : node ≠ []) :
    ∃ l, (to_hash_array root node).reverse = node_data root [] :: l := by
  induction node with
  | nil => exact absurd rfl h
  | cons i p ih =>
    cases p with
    | nil => exact ⟨[], rfl⟩
    | cons j q =>
      obtain ⟨l, hl⟩ := ih (by simp)
      refine ⟨l ++ [node_data root (j :: q)], ?_⟩
      show (node_data root (j :: q) :: to_hash_array root (j :: q)).reverse = _
      rw [List.reverse_cons, hl]
      rfl

/-- The three shapes of a key made by `to_hash` in a tree whose root is labelled
`config`. -/
theorem to_hash_key_shape (root : GNode) (hroot : node_data root [] = "config".toList)
    (node : NodePtr) :
    (to_hash_entry root node).1 = [] ∨ (to_hash_entry root node).1 = "config".toList ∨
      ∃ path, (to_hash_entry root node).1 = config_key path := by
  simp only [to_hash_entry]
  cases node with
  | nil => exact Or.inl rfl
  | cons i p =>
    obtain ⟨l, hl⟩ := to_hash_array_reverse root (i :: p) (by simp)
    simp only [hl, hroot]
    cases l with
    | nil => exact Or.inr (Or.inl rfl)
    | cons a l => exact Or.inr (Or.inr ⟨_, colon_join_config _ (by simp)⟩)

theorem reachable_keys (priv : IpcamConfigManagerPrivate) (hr : Reachable priv) :
    priv.conf_hash.WF ∧
    ∀ k ∈ priv.conf_hash.map Prod.fst,
      k.length < PATH_MAX ∧
      (k = [] ∨ k = "config".toList ∨ ∃ path, k = config_key path) := by
  induction hr with
  | init => exact ⟨List.nodup_nil, fun k hk => by simp [ipcam_config_manager_init] at hk⟩
  | merge p p' conf_name conf_value _ hm ih =>
    obtain ⟨hfit, hp⟩ := merge_inv _ _ _ _ hm
    subst hp
    by_cases hc : g_hash_table_contains p.conf_hash (config_key conf_name) = true
    · simp only [hc, if_true]
      exact ih
    · simp only [hc, Bool.false_eq_true, if_false]
      refine ⟨insert_wf _ _ _ ih.1, fun k hk => ?_⟩
      rw [insert_keys] at hk
      split at hk
      · exact ih.2 k hk
      · rcases List.mem_append.1 hk with hk | hk
        · exact ih.2 k hk
        · have hk' : k = config_key conf_name := by simpa using hk
          subst hk'
          exact ⟨hfit, Or.inr (Or.inr ⟨conf_name, rfl⟩)⟩
  | load p p' source _ hload ih =>
    obtain ⟨rest, cfg, hb, _, hfit, hp⟩ := load_config_inv p p' source true hload
    subst hp
    refine ⟨insert_all_wf _ _ ih.1, fun k hk => ?_⟩
    rcases (insert_all_keys _ _ _).1 hk with hk | hk
    · exact ih.2 k hk
    · obtain ⟨e, he, hek⟩ := List.mem_map.1 hk
      have hlen := hfit e he
      rw [hek] at hlen
      refine ⟨hlen, ?_⟩
      simp only [flatten_entries, List.mem_map] at he
      obtain ⟨node, _, hn⟩ := he
      rw [← hek, ← hn]
      exact to_hash_key_shape cfg (built_root_label _ _ _ _ hb) node

/-- C8 (as amended): in a manager reached from the initial one by merges and successful
loads, every key of the store is the empty string, the string `config`, or `config:`
followed by a path, and an entry of the last kind is returned by `get` of that path. -/
theorem stored_keys_shape (priv : IpcamConfigManagerPrivate) (hr : Reachable priv)
    (k : Str) (v : Option Str) (hm : (k, v) ∈ priv.conf_hash) :
    k = [] ∨ k = "config".toList ∨
      ∃ path, k = config_key path ∧
        ∃ p, ipcam_config_manager_get priv path = some (v, p) := by
  obtain ⟨hwf, hshape⟩ := reachable_keys priv hr
  obtain ⟨hlen, hs⟩ := hshape k (List.mem_map.2 ⟨(k, v), hm, rfl⟩)
  rcases hs with h | h | ⟨path, h⟩
  · exact Or.inl h
  · exact Or.inr (Or.inl h)
  · refine Or.inr (Or.inr ⟨path, h, ?_⟩)
    rw [h] at hlen
    rw [get_eq _ _ hlen, ← h, lookup_eq_of_mem _ hwf _ _ hm]
    exact ⟨_, rfl⟩

/-- C8 (as amended), after `merge x 1` and the load of `{a: {b: "1", c: "2"}}`: the
entry `config:a:c` is returned by `get a:c`. -/
theorem stored_keys_shape_witness :
    "config:a:c".toList = [] ∨ "config:a:c".toList = "config".toList ∨
      ∃ path, "config:a:c".toList = config_key path ∧
        ∃ p, ipcam_config_manager_get
          (⟨"config:x".toList,
            [("config:x".toList, some "1".toList), ("config:a:b".toList, some "1".toList),
             ("config:a:c".toList, some "2".toList)], []⟩ : IpcamConfigManagerPrivate) path =
          some (some "2".toList, p) :=
  stored_keys_shape _
    (Reachable.load ⟨"config:x".toList, [("config:x".toList, some "1".toList)], []⟩ _
      events_a_b_c
      (Reachable.merge ipcam_config_manager_init _ "x".toList (some "1".toList)
        Reachable.init (by decide)) (by decide))
    "config:a:c".toList (some "2".toList) (by decide)

/-- C8 refuted: the load of a document that is the single scalar `hello` into the
initial manager returns `TRUE` and leaves the one entry `config => hello`, whose key is
not `config:` followed by anything, so that no name makes `get` return it; the load of
an empty stream leaves the entry with the empty key and the value `config`; and the
merge of the empty name leaves the key `config:`, followed by nothing. -/
theorem stored_key_without_prefix :
    ipcam_config_manager_load_config ipcam_config_manager_init (some events_scalar_document) =
      some (true, ⟨[], [("config".toList, some "hello".toList)], []⟩) ∧
    (∀ path, "config".toList ≠ config_key path) ∧
    (∀ conf_name ret p,
      ipcam_config_manager_get ⟨[], [("config".toList, some "hello".toList)], []⟩ conf_name =
        some (ret, p) → ret = none) ∧
    ipcam_config_manager_load_config ipcam_config_manager_init
        (some [YAML_STREAM_START_EVENT, YAML_STREAM_END_EVENT]) =
      some (true, ⟨[], [([], some "config".toList)], []⟩) ∧
    ipcam_config_manager_merge ipcam_config_manager_init [] (some "v".toList) =
      some ⟨"config:".toList, [("config:".toList, some "v".toList)], []⟩ := by
  have hne : ∀ path, "config".toList ≠ config_key path := by
    intro path hh
    have := congrArg List.length hh
    simp [config_key] at this
  refine ⟨by decide, hne, ?_, by decide, by decide⟩
  intro conf_name ret p hg
  by_cases hfit : (config_key conf_name).length < PATH_MAX
  · rw [get_eq _ _ hfit] at hg
    cases hg
    simp only [g_hash_table_lookup, if_neg (hne conf_name)]
  · simp only [ipcam_config_manager_get, sprintf_config_overrun _ (Nat.not_lt.1 hfit)] at hg
    cases hg

/-! ## The frame of the accessors -/

/-- C18 (as amended): for a name that, with `config:` before it and the terminator after
it, fits the key buffer, `get` returns and leaves the store as it was; `get_collection`
leaves the store as it was whenever it returns, and it returns when no key of the store
is `config:` followed by just the name; `merge` returns, and after it every key other
than `config:` followed by the name has the binding it had, every entry of the store is
still there, and an entry of the new store is an old entry or the one for that key. -/
theorem accessor_frame (priv : IpcamConfigManagerPrivate) (conf_name : Str)
    (conf_value : Option Str) (hfit : (config_key conf_name).length < PATH_MAX) :
    (∃ ret p, ipcam_config_manager_get priv conf_name = some (ret, p) ∧
      p.conf_hash = priv.conf_hash) ∧
    (∀ priv', ipcam_config_manager_get_collection priv conf_name = some priv' →
      priv'.conf_hash = priv.conf_hash) ∧
    (config_key conf_name ∉ priv.conf_hash.map Prod.fst →
      ∃ priv', ipcam_config_manager_get_collection priv conf_name = some priv' ∧
        priv'.conf_hash = priv.conf_hash) ∧
    ∃ merged, ipcam_config_manager_merge priv conf_name conf_value = some merged ∧
      (∀ k, k ≠ config_key conf_name →
        g_hash_table_lookup merged.conf_hash k = g_hash_table_lookup priv.conf_hash k) ∧
      (∀ e, e ∈ priv.conf_hash → e ∈ merged.conf_hash) ∧
      (∀ e, e ∈ merged.conf_hash →
        e ∈ priv.conf_hash ∨ e = (config_key conf_name, conf_value)) := by
  refine ⟨⟨_, _, get_eq _ _ hfit, rfl⟩, fun priv' h => get_collection_store _ _ _ h, ?_, ?_⟩
  · intro hk
    obtain ⟨p, hp⟩ := get_collection_some priv conf_name hfit hk
    exact ⟨p, hp, get_collection_store _ _ _ hp⟩
  · refine ⟨_, merge_eq _ _ _ hfit, ?_⟩
    by_cases hc : g_hash_table_contains priv.conf_hash (config_key conf_name) = true
    · rw [if_pos hc]
      exact ⟨fun _ _ => rfl, fun _ he => he, fun _ he => Or.inl he⟩
    · rw [if_neg hc]
      have hnot : config_key conf_name ∉ priv.conf_hash.map Prod.fst :=
        fun hm => hc ((contains_iff_mem_keys _ _).2 hm)
      refine ⟨fun k hk => lookup_insert_ne _ _ _ _ (fun h => hk h.symm), ?_, ?_⟩
      · intro e he
        rw [insert_of_not_mem _ _ _ hnot]
        exact List.mem_append_left _ he
      · intro e he
        rw [insert_of_not_mem _ _ _ hnot] at he
        rcases List.mem_append.1 he with he | he
        · exact Or.inl he
        · exact Or.inr (by simpa using he)

/-- C18 (as amended), on the three-entry store: the collection of `net:eth0` is returned
with the store as it was, and `merge x v` returns. -/
theorem accessor_frame_witness :
    (∃ ret p, ipcam_config_manager_get priv_net "net:eth0".toList = some (ret, p) ∧
      p.conf_hash = priv_net.conf_hash) ∧
    (∀ priv', ipcam_config_manager_get_collection priv_net "net:eth0".toList = some priv' →
      priv'.conf_hash = priv_net.conf_hash) ∧
    (config_key "net:eth0".toList ∉ priv_net.conf_hash.map Prod.fst →
      ∃ priv', ipcam_config_manager_get_collection priv_net "net:eth0".toList = some priv' ∧
        priv'.conf_hash = priv_net.conf_hash) ∧
    ∃ merged, ipcam_config_manager_merge priv_net "net:eth0".toList (some "v".toList) =
        some merged ∧
      (∀ k, k ≠ config_key "net:eth0".toList →
        g_hash_table_lookup merged.conf_hash k = g_hash_table_lookup priv_net.conf_hash k) ∧
      (∀ e, e ∈ priv_net.conf_hash → e ∈ merged.conf_hash) ∧
      (∀ e, e ∈ merged.conf_hash →
        e ∈ priv_net.conf_hash ∨ e = (config_key "net:eth0".toList, some "v".toList)) :=
  accessor_frame priv_net "net:eth0".toList (some "v".toList) (by decide)

/-- C18 refuted: for a name of 4089 characters each of `get`, `merge` and
`get_collection` writes past the end of the key buffer, behind which the structure keeps
the pointer to the store, and no result is defined; and on a store that holds the key
`config:a`, `get_collection a` reads past the end of that key. -/
theorem accessor_overruns_key_buffer :
    PATH_MAX ≤ (config_key long_name).length ∧
    ipcam_config_manager_get priv_net long_name = none ∧
    ipcam_config_manager_merge priv_net long_name (some "v".toList) = none ∧
    ipcam_config_manager_get_collection priv_net long_name = none ∧
    ipcam_config_manager_get_collection
      ⟨[], [("config:a".toList, some "1".toList)], []⟩ "a".toList = none := by
  refine ⟨long_name_overrun, ?_, ?_, get_collection_overrun _ _ long_name_overrun, by decide⟩
  · simp only [ipcam_config_manager_get, sprintf_config_overrun _ long_name_overrun]
  · simp only [ipcam_config_manager_merge, sprintf_config_overrun _ long_name_overrun]

/-! ## The last leaf wins -/

/-- C16: when a load returns, the builder has returned a tree; for every leaf of it
after which the traversal visits no leaf with the same key, the store binds the key of
the leaf to the label of the leaf, whatever it held before; and a key that no leaf
produces has the binding, or the absence of one, that it had before the load. -/
theorem load_last_write_wins (priv priv' : IpcamConfigManagerPrivate)
    (source : yaml_parser_t) (ret : Bool)
    (h : ipcam_config_manager_load_config priv (some source) = some (ret, priv')) :
    ∃ rest cfg,
      process_layer (source.length + 1) source (g_node_new "config".toList) [] =
        some (rest, cfg) ∧
      (∀ earlier node later, g_node_traverse_leaves cfg = earlier ++ node :: later →
        (∀ n ∈ later, (to_hash_entry cfg n).1 ≠ (to_hash_entry cfg node).1) →
        g_hash_table_lookup priv'.conf_hash (to_hash_entry cfg node).1 =
          some (node_data cfg node)) ∧
      (∀ k, (∀ n ∈ g_node_traverse_leaves cfg, (to_hash_entry cfg n).1 ≠ k) →
        g_hash_table_lookup priv'.conf_hash k = g_hash_table_lookup priv.conf_hash k) := by
  obtain ⟨rest, cfg, hb, _, _, hp⟩ := load_config_inv priv priv' source ret h
  subst hp
  refine ⟨rest, cfg, hb, ?_, ?_⟩
  · intro earlier node later hsplit hlast
    show g_hash_table_lookup (insert_all priv.conf_hash (flatten_entries cfg)) _ = _
    have hfl : flatten_entries cfg =
        earlier.map (to_hash_entry cfg) ++
          ((to_hash_entry cfg node).1, node_data cfg node) :: later.map (to_hash_entry cfg) := by
      simp only [flatten_entries, hsplit, List.map_append, List.map_cons]
      rfl
    rw [hfl]
    apply lookup_insert_all_last
    intro hm
    simp only [List.map_map, List.mem_map, Function.comp] at hm
    obtain ⟨n, hn, hk⟩ := hm
    exact hlast n hn hk
  · intro k hk
    apply lookup_insert_all_of_not_mem
    intro hm
    simp only [flatten_entries, List.map_map, List.mem_map, Function.comp] at hm
    obtain ⟨n, hn, hkk⟩ := hm
    exact hk n hn hkk

/-- C16, on `{a: "1", a: "2"}` loaded over a store that binds `config:a` to `0` and
`config:x` to `9`: afterwards `config:a` is bound to `2`, the label of the last leaf
with this key, and `config:x` still to `9`. -/
theorem load_last_write_wins_witness :
    ∃ rest cfg,
      process_layer (events_a_a.length + 1) events_a_a (g_node_new "config".toList) [] =
        some (rest, cfg) ∧
      (∀ earlier node later, g_node_traverse_leaves cfg = earlier ++ node :: later →
        (∀ n ∈ later, (to_hash_entry cfg n).1 ≠ (to_hash_entry cfg node).1) →
        g_hash_table_lookup
            [("config:a".toList, some "2".toList), ("config:x".toList, some "9".toList)]
            (to_hash_entry cfg node).1 =
          some (node_data cfg node)) ∧
      (∀ k, (∀ n ∈ g_node_traverse_leaves cfg, (to_hash_entry cfg n).1 ≠ k) →
        g_hash_table_lookup
            [("config:a".toList, some "2".toList), ("config:x".toList, some "9".toList)] k =
          g_hash_table_lookup
            [("config:a".toList, some "0".toList), ("config:x".toList, some "9".toList)] k) :=
  load_last_write_wins
    ⟨[], [("config:a".toList, some "0".toList), ("config:x".toList, some "9".toList)], []⟩
    ⟨[], [("config:a".toList, some "2".toList), ("config:x".toList, some "9".toList)], []⟩
    events_a_a true (by decide)

/-! ## Exactness of the collection -/

/-- A key that has the prefix and goes on with `:` is the prefix, the `:` and the rest. -/
theorem matching_key_shape (pre k : Str) (hp : g_str_has_prefix k pre = true)
    (hc : (k.drop pre.length).head? = some ':') :
    k = pre ++ ':' :: k.drop (pre.length + 1) ∧ pre.length < k.length := by
  obtain ⟨t, ht⟩ : pre <+: k := List.isPrefixOf_iff_prefix.1 hp
  subst ht
  rw [List.drop_left] at hc
  cases t with
  | nil => simp at hc
  | cons a t =>
    simp only [List.head?_cons, Option.some.injEq] at hc
    subst hc
    refine ⟨?_, by simp⟩
    have : List.drop (pre.length + 1) (pre ++ ':' :: t) = t := by
      rw [← List.drop_drop, List.drop_left]
      rfl
    rw [this]

theorem shaped_key_matches (pre s : Str) :
    g_str_has_prefix (pre ++ ':' :: s) pre = true ∧
    (pre ++ ':' :: s).drop (pre.length + 1) = s ∧
    ((pre ++ ':' :: s).drop pre.length).head? = some ':' := by
  refine ⟨List.isPrefixOf_iff_prefix.2 ⟨_, rfl⟩, ?_, ?_⟩
  · rw [← List.drop_drop, List.drop_left]
    rfl
  · rw [List.drop_left]
    rfl

theorem collection_entries_cons (pre : Str) (k : Str) (v : Option Str) (t : GHashTable) :
    collection_entries pre ((k, v) :: t) =
      if g_str_has_prefix k pre then (k.drop (pre.length + 1), v) :: collection_entries pre t
      else collection_entries pre t := by
  unfold collection_entries
  by_cases hp : g_str_has_prefix k pre = true
  · simp [List.filterMap_cons, hp]
  · simp [List.filterMap_cons, hp]

theorem foreach_generate_eq (pre : Str) : ∀ (h coll : GHashTable),
    (∀ k ∈ h.map Prod.fst, g_str_has_prefix k pre = true →
      (k.drop pre.length).head? = some ':') →
    g_hash_table_foreach h (generate_collection pre) coll =
      some (insert_pairs coll (collection_entries pre h)) := by
  intro h
  induction h with
  | nil => intro coll _; rfl
  | cons e t ih =>
    intro coll hsep
    obtain ⟨k, v⟩ := e
    have hsep' : ∀ k ∈ t.map Prod.fst, g_str_has_prefix k pre = true →
        (k.drop pre.length).head? = some ':' :=
      fun k' hk' => hsep k' (List.mem_cons_of_mem _ hk')
    rw [collection_entries_cons]
    simp only [g_hash_table_foreach, generate_collection]
    by_cases hp : g_str_has_prefix k pre = true
    · have hlen := (matching_key_shape pre k hp (hsep k (List.mem_cons_self _ _) hp)).2
      simp only [hp, hlen, if_true]
      rw [ih _ hsep', insert_pairs_cons]
    · have hf : g_str_has_prefix k pre = false := by simpa using hp
      simp only [hf, Bool.false_eq_true, if_false]
      exact ih _ hsep'

theorem mem_collection_entries (pre : Str) (h : GHashTable)
    (hsep : ∀ k ∈ h.map Prod.fst, g_str_has_prefix k pre = true →
      (k.drop pre.length).head? = some ':') (s : Str) (v : Option Str) :
    (s, v) ∈ collection_entries pre h ↔ (pre ++ ':' :: s, v) ∈ h := by
  unfold collection_entries
  rw [List.mem_filterMap]
  constructor
  · rintro ⟨⟨k, v'⟩, hmem, hf⟩
    by_cases hp : g_str_has_prefix k pre = true
    · simp only [hp, if_true, Option.some.injEq, Prod.mk.injEq] at hf
      obtain ⟨hs, hv⟩ := hf
      have hk := (matching_key_shape pre k hp
        (hsep k (List.mem_map.2 ⟨(k, v'), hmem, rfl⟩) hp)).1
      rw [hs] at hk
      rw [← hk, ← hv]
      exact hmem
    · simp [hp] at hf
  · intro hmem
    refine ⟨(pre ++ ':' :: s, v), hmem, ?_⟩
    simp only [(shaped_key_matches pre s).1, (shaped_key_matches pre s).2.1, if_true]

theorem collection_entries_nodup (pre : Str) (h : GHashTable) (hwf : h.WF)
    (hsep : ∀ k ∈ h.map Prod.fst, g_str_has_prefix k pre = true →
      (k.drop pre.length).head? = some ':') :
    ((collection_entries pre h).map Prod.fst).Nodup := by
  induction h with
  | nil => simp [collection_entries]
  | cons e t ih =>
    obtain ⟨k, v⟩ := e
    have hnd : k ∉ t.map Prod.fst ∧ (t.map Prod.fst).Nodup := by
      simpa [GHashTable.WF] using hwf
    have hsep' : ∀ k ∈ t.map Prod.fst, g_str_has_prefix k pre = true →
        (k.drop pre.length).head? = some ':' :=
      fun k' hk' => hsep k' (List.mem_cons_of_mem _ hk')
    rw [collection_entries_cons]
    by_cases hp : g_str_has_prefix k pre = true
    · simp only [hp, if_true, List.map_cons, List.nodup_cons]
      refine ⟨?_, ih hnd.2 hsep'⟩
      intro hm
      obtain ⟨⟨s, v'⟩, hmem, hs⟩ := List.mem_map.1 hm
      simp only at hs
      subst hs
      have hk := (matching_key_shape pre k hp (hsep k (List.mem_cons_self _ _) hp)).1
      have := (mem_collection_entries pre t hsep' _ v').1 hmem
      rw [← hk] at this
      exact hnd.1 (List.mem_map.2 ⟨(k, v'), this, rfl⟩)
    · simp only [hp]
      exact ih hnd.2 hsep'

/-- Inserting entries with pairwise different keys, none of them a key of the table,
appends them to the table. -/
theorem insert_pairs_fresh (es : List (Str × Option Str)) : ∀ (h : GHashTable),
    (es.map Prod.fst).Nodup → (∀ k ∈ es.map Prod.fst, k ∉ h.map Prod.fst) →
    insert_pairs h es = h ++ es := by
  induction es with
  | nil => intro h _ _; simp [insert_pairs]
  | cons e es ih =>
    intro h hnd hdis
    obtain ⟨k, v⟩ := e
    simp only [List.map_cons, List.nodup_cons] at hnd
    have hk : k ∉ h.map Prod.fst := hdis k (by simp)
    rw [insert_pairs_cons, insert_of_not_mem _ _ _ hk, ih _ hnd.2]
    · simp
    · intro k' hk' hm
      simp only [List.map_append, List.map_cons, List.map_nil, List.mem_append,
        List.mem_singleton] at hm
      rcases hm with hm | hm
      · exact hdis k' (List.mem_cons_of_mem _ hk') hm
      · subst hm
        exact hnd.1 hk'

theorem prefix_length_le (k pre : Str) (hp : g_str_has_prefix k pre = true) :
    pre.length ≤ k.length :=
  (List.isPrefixOf_iff_prefix.1 hp).length_le

/-- C15 (as amended): for a name that fits the key buffer and a store with unique keys in
which every key that has `config:` followed by the name as a prefix goes on with `:`,
`get_collection` returns a table with unique keys that holds `s => v` exactly when the
store holds `v` under `config:`, the name, `:` and `s`; two different matching keys of
the store give different keys of the collection. -/
theorem get_collection_exact (priv : IpcamConfigManagerPrivate) (conf_name : Str)
    (hfit : (config_key conf_name).length < PATH_MAX)
    (hwf : priv.conf_hash.WF)
    (hsep : ∀ k ∈ priv.conf_hash.map Prod.fst,
      g_str_has_prefix k (config_key conf_name) = true →
      (k.drop (config_key conf_name).length).head? = some ':') :
    ∃ priv', ipcam_config_manager_get_collection priv conf_name = some priv' ∧
      priv'.collection.WF ∧
      (∀ s v, (s, v) ∈ priv'.collection ↔
        (config_key conf_name ++ ':' :: s, v) ∈ priv.conf_hash) ∧
      (∀ k1 ∈ priv.conf_hash.map Prod.fst, ∀ k2 ∈ priv.conf_hash.map Prod.fst,
        g_str_has_prefix k1 (config_key conf_name) = true →
        g_str_has_prefix k2 (config_key conf_name) = true →
        k1.drop ((config_key conf_name).length + 1) =
          k2.drop ((config_key conf_name).length + 1) →
        k1 = k2) := by
  have hnd := collection_entries_nodup _ _ hwf hsep
  have hcoll : insert_pairs [] (collection_entries (config_key conf_name) priv.conf_hash) =
      collection_entries (config_key conf_name) priv.conf_hash := by
    rw [insert_pairs_fresh _ [] hnd (fun _ _ hm => by cases hm), List.nil_append]
  refine ⟨⟨config_key conf_name, priv.conf_hash,
    collection_entries (config_key conf_name) priv.conf_hash⟩, ?_, hnd, ?_, ?_⟩
  · rw [get_collection_eq _ _ hfit, foreach_generate_eq _ _ _ hsep, hcoll]
    rfl
  · intro s v
    exact mem_collection_entries _ _ hsep s v
  · intro k1 hk1 k2 hk2 hp1 hp2 heq
    rw [(matching_key_shape _ k1 hp1 (hsep k1 hk1 hp1)).1, (matching_key_shape _ k2 hp2 (hsep k2 hk2 hp2)).1,
      heq]

/-- C15 (as amended), on the three-entry store and the name `net:eth0`: the collection
holds `ip => 10.0.0.1` exactly because the store holds `config:net:eth0:ip => 10.0.0.1`. -/
theorem get_collection_exact_witness :
    ∃ priv', ipcam_config_manager_get_collection priv_net "net:eth0".toList = some priv' ∧
      priv'.collection.WF ∧
      (∀ s v, (s, v) ∈ priv'.collection ↔
        (config_key "net:eth0".toList ++ ':' :: s, v) ∈ priv_net.conf_hash) ∧
      (∀ k1 ∈ priv_net.conf_hash.map Prod.fst, ∀ k2 ∈ priv_net.conf_hash.map Prod.fst,
        g_str_has_prefix k1 (config_key "net:eth0".toList) = true →
        g_str_has_prefix k2 (config_key "net:eth0".toList) = true →
        k1.drop ((config_key "net:eth0".toList).length + 1) =
          k2.drop ((config_key "net:eth0".toList).length + 1) →
        k1 = k2) :=
  get_collection_exact priv_net "net:eth0".toList (by decide) (by decide) (by decide)

/-- C15 refuted: on the three-entry store, whose keys are unique and none of which has
`config:` followed by a name of 4089 characters as a prefix, `get_collection` of this
name writes past the end of the key buffer and returns no collection. -/
theorem get_collection_long_name_overruns :
    priv_net.conf_hash.WF ∧
    (∀ k ∈ priv_net.conf_hash.map Prod.fst,
      g_str_has_prefix k (config_key long_name) = true →
      (k.drop (config_key long_name).length).head? = some ':') ∧
    PATH_MAX ≤ (config_key long_name).length ∧
    ipcam_config_manager_get_collection priv_net long_name = none := by
  refine ⟨by decide, ?_, long_name_overrun, get_collection_overrun _ _ long_name_overrun⟩
  intro k hk hp
  have h1 := prefix_length_le k _ hp
  have h2 : ∀ k ∈ priv_net.conf_hash.map Prod.fst, k.length < PATH_MAX := by decide
  have h3 := h2 k hk
  have h4 := long_name_overrun
  omega

/-! ## Termination of the builder -/

theorem balanced_scalars (values : List Str) (es : yaml_parser_t) (h : Balanced es) :
    Balanced (values.map YAML_SCALAR_EVENT ++ es) := by
  induction values with
  | nil => exact h
  | cons v vs ih => exact Balanced.skip _ _ (by simp) (by simp) (by simp) ih


/-- The loop returns only on reading a mapping-end or a stream-end. -/
theorem loop_needs_terminator (fuel : Nat) :
    ∀ (parser : yaml_parser_t) (root : GNode) (data last_leaf : NodePtr) (storage : Nat)
      (res : yaml_parser_t × GNode),
      process_layer_loop fuel parser root data last_leaf storage = some res →
      YAML_MAPPING_END_EVENT ∈ parser ∨ YAML_STREAM_END_EVENT ∈ parser := by
  induction fuel with
  | zero => intro parser root data ll st res h; cases h
  | succ n ih =>
    intro parser root data ll st res h
    cases parser with
    | nil => rw [loop_nil] at h; cases h
    | cons e r =>
      have hstep : ∀ root1 data1 ll1 st1 res1,
          process_layer_loop n r root1 data1 ll1 st1 = some res1 →
          YAML_MAPPING_END_EVENT ∈ e :: r ∨ YAML_STREAM_END_EVENT ∈ e :: r := by
        intro root1 data1 ll1 st1 res1 h1
        rcases ih r root1 data1 ll1 st1 res1 h1 with h2 | h2
        · exact Or.inl (List.mem_cons_of_mem _ h2)
        · exact Or.inr (List.mem_cons_of_mem _ h2)
      cases e with
      | YAML_SCALAR_EVENT value =>
        rw [loop_scalar] at h
        split at h
        · exact hstep _ _ _ _ _ h
        · exact hstep _ _ _ _ _ h
      | YAML_MAPPING_START_EVENT =>
        rw [loop_mapping_start] at h
        split at h
        · cases h
        · rename_i p1 root1 hnest
          exact hstep _ _ _ _ _ hnest
      | YAML_MAPPING_END_EVENT => exact Or.inl (List.mem_cons_self _ _)
      | YAML_STREAM_END_EVENT => exact Or.inr (List.mem_cons_self _ _)
      | YAML_SEQUENCE_START_EVENT => rw [loop_sequence_start] at h; exact hstep _ _ _ _ _ h
      | YAML_SEQUENCE_END_EVENT => rw [loop_sequence_end] at h; exact hstep _ _ _ _ _ h
      | YAML_NO_EVENT =>
        rw [loop_ignored _ _ (by simp [ignored_event])] at h; exact hstep _ _ _ _ _ h
      | YAML_STREAM_START_EVENT =>
        rw [loop_ignored _ _ (by simp [ignored_event])] at h; exact hstep _ _ _ _ _ h
      | YAML_DOCUMENT_START_EVENT =>
        rw [loop_ignored _ _ (by simp [ignored_event])] at h; exact hstep _ _ _ _ _ h
      | YAML_DOCUMENT_END_EVENT =>
        rw [loop_ignored _ _ (by simp [ignored_event])] at h; exact hstep _ _ _ _ _ h
      | YAML_ALIAS_EVENT =>
        rw [loop_ignored _ _ (by simp [ignored_event])] at h; exact hstep _ _ _ _ _ h

/-- A load returns nothing when the key of some leaf does not fit the buffer of
`to_hash`. -/
theorem load_config_overrun (priv : IpcamConfigManagerPrivate) (source rest : yaml_parser_t)
    (cfg : GNode)
    (h : process_layer (source.length + 1) source (g_node_new "config".toList) [] =
      some (rest, cfg))
    (hover : ∃ e ∈ flatten_entries cfg, PATH_MAX ≤ e.1.length) :
    ipcam_config_manager_load_config priv (some source) = none := by
  cases hl : ipcam_config_manager_load_config priv (some source) with
  | none => rfl
  | some r =>
    obtain ⟨ret, priv'⟩ := r
    obtain ⟨rest', cfg', hb, _, hfit, _⟩ := load_config_inv priv priv' source ret hl
    rw [h] at hb
    cases hb
    obtain ⟨e, he, hlen⟩ := hover
    exact absurd (hfit e he) (Nat.not_lt.2 hlen)

theorem load_config_isSome (priv : IpcamConfigManagerPrivate) (file : Option yaml_parser_t)
    (ret : Bool) (priv' : IpcamConfigManagerPrivate)
    (h : ipcam_config_manager_load_config priv file = some (ret, priv')) :
    (ret = true ↔ file.isSome = true) := by
  cases file with
  | none =>
    simp only [ipcam_config_manager_load_config] at h
    cases h
    simp
  | some source =>
    obtain ⟨_, _, _, hret, _, _⟩ := load_config_inv priv priv' source ret h
    simp [hret]

/-- C13: on a balanced run of events followed by the stream-end, the top-level call of
`process_layer` returns (with the fuel that `load_config` gives it) and leaves no event;
a call started after a mapping-start returns the events `rest` that follow the matching
mapping-end, whatever they are, and a call started before a stream-end those that follow
the stream-end. The load of such a stream returns `TRUE` when the keys of all leaves of
the tree fit the buffer of `to_hash`. -/
theorem balanced_stream_terminates (body : yaml_parser_t) (hb : Balanced body) (root : GNode)
    (data : NodePtr) :
    (∃ root', process_layer ((body ++ [YAML_STREAM_END_EVENT]).length + 1)
        (body ++ [YAML_STREAM_END_EVENT]) root data = some ([], root')) ∧
    (∀ (fuel : Nat) (rest : yaml_parser_t), body.length < fuel →
      ∃ root', process_layer fuel (body ++ YAML_MAPPING_END_EVENT :: rest) root data =
        some (rest, root')) ∧
    (∀ (fuel : Nat) (rest : yaml_parser_t), body.length < fuel →
      ∃ root', process_layer fuel (body ++ YAML_STREAM_END_EVENT :: rest) root data =
        some (rest, root')) ∧
    (∀ priv, ∃ cfg,
      process_layer ((body ++ [YAML_STREAM_END_EVENT]).length + 1)
        (body ++ [YAML_STREAM_END_EVENT]) (g_node_new "config".toList) [] = some ([], cfg) ∧
      ((∀ e ∈ flatten_entries cfg, e.1.length < PATH_MAX) →
        ∃ priv', ipcam_config_manager_load_config priv
          (some (body ++ [YAML_STREAM_END_EVENT])) = some (true, priv'))) := by
  have htop : ∃ root', process_layer ((body ++ [YAML_STREAM_END_EVENT]).length + 1)
      (body ++ [YAML_STREAM_END_EVENT]) (g_node_new "config".toList) [] = some ([], root') :=
    loop_balanced body hb _ (Or.inr rfl) _ [] _ _ _ _
      (by simp only [List.length_append, List.length_singleton]; omega)
  refine ⟨loop_balanced body hb _ (Or.inr rfl) _ [] _ _ _ _
      (by simp only [List.length_append, List.length_singleton]; omega),
    fun fuel rest hf => loop_balanced body hb _ (Or.inl rfl) fuel rest _ _ _ _ hf,
    fun fuel rest hf => loop_balanced body hb _ (Or.inr rfl) fuel rest _ _ _ _ hf, ?_⟩
  intro priv
  obtain ⟨root', h⟩ := htop
  exact ⟨root', h, fun hfit => ⟨_, load_config_eq priv _ _ _ h hfit⟩⟩

/-- C13, on the events of `{a: {b: "1", c: "2"}}`: the top-level call returns with no
event left, and the load returns `TRUE`. -/
theorem balanced_stream_terminates_witness :
    (∃ root', process_layer (events_a_b_c.length + 1) events_a_b_c
        (g_node_new "config".toList) [] = some ([], root')) ∧
    (∃ cfg,
      process_layer (events_a_b_c.length + 1) events_a_b_c (g_node_new "config".toList) [] =
        some ([], cfg) ∧
      ((∀ e ∈ flatten_entries cfg, e.1.length < PATH_MAX) →
        ∃ priv', ipcam_config_manager_load_config ipcam_config_manager_init
          (some events_a_b_c) = some (true, priv'))) :=
  have hb : Balanced
      [YAML_STREAM_START_EVENT, YAML_DOCUMENT_START_EVENT, YAML_MAPPING_START_EVENT,
       YAML_SCALAR_EVENT "a".toList, YAML_MAPPING_START_EVENT,
       YAML_SCALAR_EVENT "b".toList, YAML_SCALAR_EVENT "1".toList,
       YAML_SCALAR_EVENT "c".toList, YAML_SCALAR_EVENT "2".toList,
       YAML_MAPPING_END_EVENT, YAML_MAPPING_END_EVENT, YAML_DOCUMENT_END_EVENT] :=
    Balanced.skip _ _ (by decide) (by decide) (by decide)
      (Balanced.skip _ _ (by decide) (by decide) (by decide)
        (Balanced.nest
          [YAML_SCALAR_EVENT "a".toList, YAML_MAPPING_START_EVENT,
           YAML_SCALAR_EVENT "b".toList, YAML_SCALAR_EVENT "1".toList,
           YAML_SCALAR_EVENT "c".toList, YAML_SCALAR_EVENT "2".toList, YAML_MAPPING_END_EVENT]
          [YAML_DOCUMENT_END_EVENT]
          (Balanced.skip _ _ (by decide) (by decide) (by decide)
            (Balanced.nest
              [YAML_SCALAR_EVENT "b".toList, YAML_SCALAR_EVENT "1".toList,
               YAML_SCALAR_EVENT "c".toList, YAML_SCALAR_EVENT "2".toList] []
              (balanced_scalars ["b".toList, "1".toList, "c".toList, "2".toList] []
                Balanced.nil)
              Balanced.nil))
          (Balanced.skip _ _ (by decide) (by decide) (by decide) Balanced.nil)))
  ⟨(balanced_stream_terminates _ hb (g_node_new "config".toList) []).1,
   (balanced_stream_terminates _ hb (g_node_new "config".toList) []).2.2.2
     ipcam_config_manager_init⟩

/-! ## Failure and success of a load -/

/-- C5 (as amended): when the file cannot be opened `load_config` returns `FALSE` and the
manager is what it was; whenever `load_config` returns, it returns `TRUE` exactly when
the file was opened; for an opened file it returns exactly when the tree builder returns
and the keys of all leaves fit the buffer of `to_hash`; and the builder returns on every
balanced run of events followed by the stream-end, so that the load of such events
returns `TRUE` when the keys fit. -/
theorem load_failure_atomic (priv : IpcamConfigManagerPrivate) :
    ipcam_config_manager_load_config priv none = some (false, priv) ∧
    (∀ file ret priv', ipcam_config_manager_load_config priv file = some (ret, priv') →
      (ret = true ↔ file.isSome = true)) ∧
    (∀ source,
      (∃ r, ipcam_config_manager_load_config priv (some source) = some r) ↔
        ∃ rest cfg,
          process_layer (source.length + 1) source (g_node_new "config".toList) [] =
            some (rest, cfg) ∧
          ∀ e ∈ flatten_entries cfg, e.1.length < PATH_MAX) ∧
    (∀ body, Balanced body →
      ∃ cfg,
        process_layer ((body ++ [YAML_STREAM_END_EVENT]).length + 1)
          (body ++ [YAML_STREAM_END_EVENT]) (g_node_new "config".toList) [] =
          some ([], cfg) ∧
        ((∀ e ∈ flatten_entries cfg, e.1.length < PATH_MAX) →
          ipcam_config_manager_load_config priv (some (body ++ [YAML_STREAM_END_EVENT])) =
            some (true, ⟨priv.key, insert_all priv.conf_hash (flatten_entries cfg),
              priv.collection⟩))) := by
  refine ⟨rfl, fun file ret priv' h => load_config_isSome priv file ret priv' h, ?_, ?_⟩
  · intro source
    constructor
    · rintro ⟨⟨ret, priv'⟩, h⟩
      obtain ⟨rest, cfg, hb, _, hfit, _⟩ := load_config_inv priv priv' source ret h
      exact ⟨rest, cfg, hb, hfit⟩
    · rintro ⟨rest, cfg, hb, hfit⟩
      exact ⟨_, load_config_eq priv source rest cfg hb hfit⟩
  · intro body hb
    obtain ⟨cfg, h⟩ : ∃ root', process_layer ((body ++ [YAML_STREAM_END_EVENT]).length + 1)
        (body ++ [YAML_STREAM_END_EVENT]) (g_node_new "config".toList) [] =
        some ([], root') :=
      loop_balanced body hb _ (Or.inr rfl) _ [] _ _ _ _
        (by simp only [List.length_append, List.length_singleton]; omega)
    exact ⟨cfg, h, fun hfit => load_config_eq priv _ _ _ h hfit⟩

/-- C5 (as amended), seeded by a successful load: the failed load leaves `a:b` and `a:c`
retrievable. -/
theorem load_failure_atomic_witness :
    ∃ seeded, ipcam_config_manager_load_config ipcam_config_manager_init (some events_a_b_c) =
        some (true, seeded) ∧
      ipcam_config_manager_load_config seeded none = some (false, seeded) ∧
      (ipcam_config_manager_get seeded "a:b".toList).map Prod.fst = some (some "1".toList) ∧
      (ipcam_config_manager_get seeded "a:c".toList).map Prod.fst = some (some "2".toList) :=
  ⟨⟨[], [("config:a:b".toList, some "1".toList), ("config:a:c".toList, some "2".toList)], []⟩,
    by decide, (load_failure_atomic _).1, by decide, by decide⟩

/-- C5 refuted: a file that was opened and whose events break off after the key `a` of a
mapping makes the builder read `YAML_NO_EVENT` for ever: with no amount of fuel does it
return, and the load reports nothing; and for an opened file whose one key has 4096
characters the builder returns, but `to_hash` overruns its buffer and the load has no
defined result. -/
theorem opened_source_without_success :
    (∀ fuel, process_layer fuel events_broken_off (g_node_new "config".toList) [] = none) ∧
    ipcam_config_manager_load_config ipcam_config_manager_init (some events_broken_off) =
      none ∧
    process_layer (events_long_key.length + 1) events_long_key (g_node_new "config".toList) [] =
      some ([], tree_long_key) ∧
    ipcam_config_manager_load_config ipcam_config_manager_init (some events_long_key) =
      none := by
  have hb : ∀ fuel,
      process_layer fuel events_broken_off (g_node_new "config".toList) [] = none := by
    intro fuel
    cases h : process_layer fuel events_broken_off (g_node_new "config".toList) [] with
    | none => rfl
    | some res =>
      have hno : ¬ (YAML_MAPPING_END_EVENT ∈ events_broken_off ∨
          YAML_STREAM_END_EVENT ∈ events_broken_off) := by decide
      exact absurd (loop_needs_terminator fuel _ _ _ _ _ res h) hno
  refine ⟨hb, load_config_none _ _ (hb _), rfl, ?_⟩
  refine load_config_overrun _ events_long_key [] tree_long_key rfl
    ⟨to_hash_entry tree_long_key [0, 0], List.mem_map.2 ⟨[0, 0], by decide, rfl⟩, ?_⟩
  show PATH_MAX ≤ ("config".toList ++ ':' :: long_label).length
  rw [List.length_append, List.length_cons, long_label_length]
  omega

/-! ## Keys within one load -/

theorem nodup_keys_iff_no_overwrite (es : List (Str × Str)) :
    (es.map Prod.fst).Nodup ↔
      ∀ earlier e later, es = earlier ++ e :: later → e.1 ∉ earlier.map Prod.fst := by
  constructor
  · intro hnd earlier e later hsplit hm
    rw [hsplit, List.map_append, List.map_cons, List.nodup_append] at hnd
    exact hnd.2.2 hm (List.mem_cons_self _ _)
  · intro h
    induction es using List.reverseRecOn with
    | nil => exact List.nodup_nil
    | append_singleton l e ih =>
      rw [List.map_append, List.map_singleton, List.nodup_append]
      refine ⟨ih ?_, List.nodup_singleton _, ?_⟩
      · intro earlier e' later hsplit
        exact h earlier e' (later ++ [e]) (by rw [hsplit]; simp)
      · intro a ha hb
        rw [List.mem_singleton] at hb
        subst hb
        exact h l e [] rfl ha

/-- Every visited leaf lies below the node at which the traversal starts. -/
theorem traverse_leaves_below :
    (∀ (n : GNode) (q p : NodePtr), p ∈ traverse_leaves n q → ∃ s, p = s ++ q) ∧
    (∀ (cs : List GNode) (q : NodePtr) (i : Nat) (p : NodePtr),
      p ∈ traverse_children cs q i → ∃ s j, i ≤ j ∧ p = s ++ j :: q) := by
  apply gnode_induction
  · intro d cs hQ q p hp
    cases cs with
    | nil =>
      simp only [traverse_leaves, List.mem_singleton] at hp
      exact ⟨[], by simp [hp]⟩
    | cons c cs =>
      rw [traverse_leaves_cons _ _ _ (by simp)] at hp
      obtain ⟨s, j, _, hs⟩ := hQ q 0 p hp
      exact ⟨s ++ [j], by simp [hs]⟩
  · intro q i p hp
    simp [traverse_children] at hp
  · intro c cs hP hQ q i p hp
    simp only [traverse_children, List.mem_append] at hp
    rcases hp with hp | hp
    · obtain ⟨s, hs⟩ := hP (i :: q) p hp
      exact ⟨s, i, Nat.le_refl _, hs⟩
    · obtain ⟨s, j, hj, hs⟩ := hQ q (i + 1) p hp
      exact ⟨s, j, by omega, hs⟩

/-- The traversal visits no leaf twice. -/
theorem traverse_leaves_nodup :
    (∀ (n : GNode) (q : NodePtr), (traverse_leaves n q).Nodup) ∧
    (∀ (cs : List GNode) (q : NodePtr) (i : Nat), (traverse_children cs q i).Nodup) := by
  apply gnode_induction
  · intro d cs hQ q
    cases cs with
    | nil => simp [traverse_leaves]
    | cons c cs =>
      rw [traverse_leaves_cons _ _ _ (by simp)]
      exact hQ q 0
  · intro q i
    simp [traverse_children]
  · intro c cs hP hQ q i
    simp only [traverse_children]
    rw [List.nodup_append]
    refine ⟨hP _, hQ _ _, ?_⟩
    intro p hp1 hp2
    obtain ⟨s1, h1⟩ := traverse_leaves_below.1 c (i :: q) p hp1
    obtain ⟨s2, j, hj, h2⟩ := traverse_leaves_below.2 cs q (i + 1) p hp2
    rw [h1] at h2
    have hlen : s1.length = s2.length := by
      have := congrArg List.length h2
      simp only [List.length_append, List.length_cons] at this
      omega
    have := (List.append_inj h2 hlen).2
    simp only [List.cons.injEq] at this
    omega

/-- The keys of the entries are pairwise different exactly when different leaves have
different keys. -/
theorem flatten_keys_nodup_iff (cfg : GNode) :
    ((flatten_entries cfg).map Prod.fst).Nodup ↔
      ∀ n1 ∈ g_node_traverse_leaves cfg, ∀ n2 ∈ g_node_traverse_leaves cfg,
        n1 ≠ n2 → (to_hash_entry cfg n1).1 ≠ (to_hash_entry cfg n2).1 := by
  have hnd : (g_node_traverse_leaves cfg).Nodup := traverse_leaves_nodup.1 cfg []
  unfold flatten_entries
  rw [List.map_map, List.nodup_map_iff_inj_on hnd]
  constructor
  · intro h n1 h1 n2 h2 hne heq
    exact hne (h n1 h1 n2 h2 heq)
  · intro h n1 h1 n2 h2 heq
    by_contra hne
    exact h n1 h1 n2 h2 hne heq

/-- C14 (as amended): when a load returns, the builder has returned a tree and the load
has inserted the entries of its leaves in the order of the traversal; no insert of the
load has a key inserted earlier in the same load exactly when no two different leaves of
the tree yield the same key; and in that case the store binds, after the load, the key
of every leaf to the label of that leaf. -/
theorem distinct_keys_iff_no_overwrite (priv priv' : IpcamConfigManagerPrivate)
    (source : yaml_parser_t) (ret : Bool)
    (h : ipcam_config_manager_load_config priv (some source) = some (ret, priv')) :
    ∃ rest cfg,
      process_layer (source.length + 1) source (g_node_new "config".toList) [] =
        some (rest, cfg) ∧
      priv'.conf_hash = insert_all priv.conf_hash (flatten_entries cfg) ∧
      ((∀ n1 ∈ g_node_traverse_leaves cfg, ∀ n2 ∈ g_node_traverse_leaves cfg,
          n1 ≠ n2 → (to_hash_entry cfg n1).1 ≠ (to_hash_entry cfg n2).1) ↔
        ∀ earlier e later, flatten_entries cfg = earlier ++ e :: later →
          e.1 ∉ earlier.map Prod.fst) ∧
      ((∀ n1 ∈ g_node_traverse_leaves cfg, ∀ n2 ∈ g_node_traverse_leaves cfg,
          n1 ≠ n2 → (to_hash_entry cfg n1).1 ≠ (to_hash_entry cfg n2).1) →
        ∀ n ∈ g_node_traverse_leaves cfg,
          g_hash_table_lookup priv'.conf_hash (to_hash_entry cfg n).1 =
            some (node_data cfg n)) := by
  obtain ⟨rest, cfg, hb, _, _, hp⟩ := load_config_inv priv priv' source ret h
  subst hp
  refine ⟨rest, cfg, hb, rfl, ?_, ?_⟩
  · rw [← flatten_keys_nodup_iff]
    exact nodup_keys_iff_no_overwrite _
  · intro hd n hn
    obtain ⟨earlier, later, hsplit⟩ := List.append_of_mem hn
    show g_hash_table_lookup (insert_all priv.conf_hash (flatten_entries cfg)) _ = _
    have hfl : flatten_entries cfg =
        earlier.map (to_hash_entry cfg) ++
          ((to_hash_entry cfg n).1, node_data cfg n) :: later.map (to_hash_entry cfg) := by
      simp only [flatten_entries, hsplit, List.map_append, List.map_cons]
      rfl
    rw [hfl]
    apply lookup_insert_all_last
    intro hm
    simp only [List.map_map, List.mem_map, Function.comp] at hm
    obtain ⟨m, hm1, hk⟩ := hm
    have hnd : (g_node_traverse_leaves cfg).Nodup := traverse_leaves_nodup.1 cfg []
    rw [hsplit, List.nodup_append] at hnd
    have hmn : m ≠ n := fun hh => (List.nodup_cons.1 hnd.2.1).1 (hh ▸ hm1)
    have hmem : m ∈ g_node_traverse_leaves cfg := by
      rw [hsplit]
      exact List.mem_append_right _ (List.mem_cons_of_mem _ hm1)
    exact hd m hmem n hn hmn hk

/-- C14 (as amended), on `{a: {b: "1", c: "2"}}`: the keys `config:a:b` and `config:a:c`
differ, and no insert overwrites. -/
theorem distinct_keys_iff_no_overwrite_witness :
    ∃ rest cfg,
      process_layer (events_a_b_c.length + 1) events_a_b_c (g_node_new "config".toList) [] =
        some (rest, cfg) ∧
      [("config:a:b".toList, some "1".toList), ("config:a:c".toList, some "2".toList)] =
        insert_all ipcam_config_manager_init.conf_hash (flatten_entries cfg) ∧
      ((∀ n1 ∈ g_node_traverse_leaves cfg, ∀ n2 ∈ g_node_traverse_leaves cfg,
          n1 ≠ n2 → (to_hash_entry cfg n1).1 ≠ (to_hash_entry cfg n2).1) ↔
        ∀ earlier e later, flatten_entries cfg = earlier ++ e :: later →
          e.1 ∉ earlier.map Prod.fst) ∧
      ((∀ n1 ∈ g_node_traverse_leaves cfg, ∀ n2 ∈ g_node_traverse_leaves cfg,
          n1 ≠ n2 → (to_hash_entry cfg n1).1 ≠ (to_hash_entry cfg n2).1) →
        ∀ n ∈ g_node_traverse_leaves cfg,
          g_hash_table_lookup
              (⟨[], [("config:a:b".toList, some "1".toList),
                ("config:a:c".toList, some "2".toList)], []⟩ :
                IpcamConfigManagerPrivate).conf_hash
              (to_hash_entry cfg n).1 =
            some (node_data cfg n)) :=
  distinct_keys_iff_no_overwrite ipcam_config_manager_init
    ⟨[], [("config:a:b".toList, some "1".toList), ("config:a:c".toList, some "2".toList)], []⟩
    events_a_b_c true (by decide)

/-- C14 refuted: for `{a: "1", a: "2"}` the built tree has the two leaves `1` and `2`,
both under a node `a` below the root; both yield the key `config:a`, and after the load
into the initial manager the store holds only `config:a => 2`: the second insert has
overwritten the first. -/
theorem duplicate_key_overwrites :
    process_layer (events_a_a.length + 1) events_a_a (g_node_new "config".toList) [] =
      some ([], tree_a_a) ∧
    g_node_traverse_leaves tree_a_a = [[0, 0], [0, 1]] ∧
    to_hash_entry tree_a_a [0, 0] = ("config:a".toList, "1".toList) ∧
    to_hash_entry tree_a_a [0, 1] = ("config:a".toList, "2".toList) ∧
    ipcam_config_manager_load_config ipcam_config_manager_init (some events_a_a) =
      some (true, ⟨[], [("config:a".toList, some "2".toList)], []⟩) :=
  ⟨rfl, by decide, by decide, by decide, by decide⟩

/-! ## Sequences of scalars -/

theorem seq_events_scalars (xs : List Str) :
    seq_events (xs.map SeqItem.scalar) = xs.map YAML_SCALAR_EVENT := by
  induction xs with
  | nil => rfl
  | cons x xs ih => simp [seq_events, ih]

/-- A run of scalars read in sequence mode below a leaf hangs their chain below it. -/
theorem seq_result_scalars (xs : List Str) : ∀ (t : GNode) (p : NodePtr) (label : Str),
    t.deref p = some (.mk label []) →
    (seq_result t p (xs.map SeqItem.scalar)).1 = t.graftAt p.reverse (seq_chain xs) := by
  induction xs with
  | nil =>
    intro t p label h
    simp only [List.map_nil, seq_result, seq_chain]
    rw [graftAt_nil _ _ _ h]
  | cons x xs ih =>
    intro t p label h
    simp only [List.map_cons, seq_result, seq_chain]
    rw [g_node_append_data_eq _ _ _ _ _ h]
    simp only [List.length_nil]
    have hnew : (t.graftAt p.reverse [.mk x []]).deref (0 :: p) = some (.mk x []) :=
      deref_new_child t p label [] (.mk x []) h
    rw [ih _ _ x hnew]
    exact graftAt_new_child t p label x [] [] (seq_chain xs) h

theorem flat_node_seq_chain (xs : List Str) (hne : xs ≠ []) : ∀ (k : Str) (anc : List Str),
    flat_node anc (.mk k (seq_chain xs)) =
      [((k :: xs.dropLast).reverse ++ anc, xs.getLast hne)] := by
  induction xs with
  | nil => exact absurd rfl hne
  | cons x xs ih =>
    intro k anc
    cases xs with
    | nil => simp [seq_chain, flat_node, flat_children]
    | cons y r =>
      have := ih (by simp) x (k :: anc)
      simp only [seq_chain] at this ⊢
      rw [flat_node_cons _ _ _ (by simp)]
      simp only [flat_children, this, List.append_nil]
      simp

/-- C17 (as amended): in a layer whose parent exists in the tree, a key scalar `k`
followed by a sequence of the scalars `xs` leaves below the parent, after its former
children, the node `k` over the chain of the elements (the first below `k`, each other
one below the one before it), and the layer goes on in `VAR`. When the sequence is not
empty the traversal finds below `k` one leaf; its key is the labels of the ancestors of
`k`, then `k`, then the elements but the last, joined with `:`; when this key fits the
buffer, `to_hash` inserts the last element under it, and otherwise `to_hash` overruns
the buffer. -/
theorem sequence_is_chain (k : Str) (xs : List Str) (fuel : Nat) (root : GNode)
    (data last_leaf : NodePtr) (rest : yaml_parser_t) (d : Str) (cs : List GNode)
    (hdata : root.deref data = some (.mk d cs))
    (hfuel : xs.length + rest.length + 3 < fuel) :
    (∃ last_leaf',
      process_layer_loop fuel
          (YAML_SCALAR_EVENT k :: YAML_SEQUENCE_START_EVENT ::
            (xs.map YAML_SCALAR_EVENT ++ YAML_SEQUENCE_END_EVENT :: rest))
          root data last_leaf VAR =
        process_layer_loop fuel rest (root.graftAt data.reverse [.mk k (seq_chain xs)]) data
          last_leaf' VAR) ∧
    (root.graftAt data.reverse [.mk k (seq_chain xs)]).deref data =
      some (.mk d (cs ++ [.mk k (seq_chain xs)])) ∧
    (root.graftAt data.reverse [.mk k (seq_chain xs)]).deref (cs.length :: data) =
      some (.mk k (seq_chain xs)) ∧
    (∀ hne : xs ≠ [], ∃ leaf,
      traverse_leaves (.mk k (seq_chain xs)) (cs.length :: data) = [leaf] ∧
      ∀ priv : IpcamConfigManagerPrivate,
        ((colon_join
            ((to_hash_array (root.graftAt data.reverse [.mk k (seq_chain xs)])
              (cs.length :: data)).reverse ++ k :: xs.dropLast)).length < PATH_MAX →
          to_hash (root.graftAt data.reverse [.mk k (seq_chain xs)]) leaf priv =
            some ⟨priv.key,
              g_hash_table_insert priv.conf_hash
                (colon_join
                  ((to_hash_array (root.graftAt data.reverse [.mk k (seq_chain xs)])
                    (cs.length :: data)).reverse ++ k :: xs.dropLast))
                (some (xs.getLast hne)), priv.collection⟩) ∧
        (PATH_MAX ≤ (colon_join
            ((to_hash_array (root.graftAt data.reverse [.mk k (seq_chain xs)])
              (cs.length :: data)).reverse ++ k :: xs.dropLast)).length →
          to_hash (root.graftAt data.reverse [.mk k (seq_chain xs)]) leaf priv = none)) := by
  have hk := deref_new_child root data d cs (.mk k (seq_chain xs)) hdata
  refine ⟨?_, deref_graftAt root data d cs _ hdata, hk, ?_⟩
  · obtain ⟨f, rfl⟩ : ∃ f, fuel = f + 1 := ⟨fuel - 1, by omega⟩
    have hnew := deref_new_child root data d cs (.mk k []) hdata
    refine ⟨(seq_result (root.graftAt data.reverse [.mk k []]) (cs.length :: data)
      (xs.map SeqItem.scalar)).2, ?_⟩
    rw [loop_scalar, if_neg (by simp), g_node_append_data_eq _ _ _ _ _ hdata]
    simp only
    rw [← seq_events_scalars,
      loop_seq_run (xs.map SeqItem.scalar) f _ data (cs.length :: data) rest k [] hnew
        (by simp only [List.length_append, seq_events_scalars, List.length_map]; omega),
      seq_result_scalars xs _ _ k hnew, graftAt_new_child root data d k cs [] _ hdata]
    exact loop_fuel_irrelevant _ _ _ _ _ _ _ (by omega) (by omega)
  · intro hne
    have h := (traverse_eq_flat (root.graftAt data.reverse [.mk k (seq_chain xs)])).1
      (.mk k (seq_chain xs)) (cs.length :: data) hk
    rw [flat_node_seq_chain xs hne] at h
    cases hl : traverse_leaves (.mk k (seq_chain xs)) (cs.length :: data) with
    | nil => rw [hl] at h; cases h
    | cons leaf tl =>
      rw [hl] at h
      cases tl with
      | cons _ _ => simp at h
      | nil =>
        simp only [List.map_cons, List.map_nil, List.cons.injEq, Prod.mk.injEq,
          and_true] at h
        have hkey : (to_hash_entry (root.graftAt data.reverse [.mk k (seq_chain xs)]) leaf) =
            (colon_join
              ((to_hash_array (root.graftAt data.reverse [.mk k (seq_chain xs)])
                (cs.length :: data)).reverse ++ k :: xs.dropLast), xs.getLast hne) := by
          simp only [to_hash_entry, h.1, h.2]
          simp
        refine ⟨leaf, rfl, fun priv => ⟨fun hfit => ?_, fun hover => ?_⟩⟩
        · rw [to_hash_eq, hkey, if_pos hfit]
        · rw [to_hash_eq, hkey, if_neg (Nat.not_lt.2 hover)]

/-- C17 (as amended), on `{a: {list: ["x", "y", "z"]}}`: below `list` there is one leaf,
inserted as `config:a:list:x:y => z`; it is the only entry of the load, and `get a:list`
is `NULL`. -/
theorem sequence_is_chain_witness :
    (∃ leaf,
      traverse_leaves (.mk "list".toList (seq_chain ["x".toList, "y".toList, "z".toList]))
        [0, 0] = [leaf] ∧
      to_hash ((GNode.mk "config".toList [.mk "a".toList []]).graftAt [0]
          [.mk "list".toList (seq_chain ["x".toList, "y".toList, "z".toList])]) leaf
          ipcam_config_manager_init =
        some ⟨[], [("config:a:list:x:y".toList, some "z".toList)], []⟩) ∧
    ipcam_config_manager_load_config ipcam_config_manager_init (some events_a_list) =
      some (true, ⟨[], [("config:a:list:x:y".toList, some "z".toList)], []⟩) ∧
    ipcam_config_manager_get ⟨[], [("config:a:list:x:y".toList, some "z".toList)], []⟩
      "a:list".toList =
      some (none, ⟨"config:a:list".toList,
        [("config:a:list:x:y".toList, some "z".toList)], []⟩) := by
  obtain ⟨leaf, hl, hto⟩ := (sequence_is_chain "list".toList ["x".toList, "y".toList, "z".toList]
    12 (.mk "config".toList [.mk "a".toList []]) [0] [0]
    [YAML_MAPPING_END_EVENT, YAML_MAPPING_END_EVENT, YAML_DOCUMENT_END_EVENT,
      YAML_STREAM_END_EVENT]
    "a".toList [] rfl (by decide)).2.2.2 (by decide)
  exact ⟨⟨leaf, hl, ((hto ipcam_config_manager_init).1 (by decide)).trans (by decide)⟩,
    by decide, by decide⟩

/-- C17 refuted: for a key whose value is the sequence of a scalar of 4096 characters
and the scalar `y`, under the root, the builder chains the two elements, and for the one
leaf `to_hash` overruns its buffer: flattening yields no entry, and the load has no
defined result. -/
theorem long_sequence_overruns :
    process_layer 7
        [YAML_SCALAR_EVENT "k".toList, YAML_SEQUENCE_START_EVENT,
          YAML_SCALAR_EVENT long_label, YAML_SCALAR_EVENT "y".toList,
          YAML_SEQUENCE_END_EVENT, YAML_STREAM_END_EVENT]
        (g_node_new "config".toList) [] =
      some ([], .mk "config".toList [.mk "k".toList [.mk long_label [.mk "y".toList []]]]) ∧
    g_node_traverse_leaves
        (.mk "config".toList [.mk "k".toList [.mk long_label [.mk "y".toList []]]]) =
      [[0, 0, 0]] ∧
    to_hash (.mk "config".toList [.mk "k".toList [.mk long_label [.mk "y".toList []]]])
      [0, 0, 0] ipcam_config_manager_init = none ∧
    ipcam_config_manager_load_config ipcam_config_manager_init
      (some [YAML_SCALAR_EVENT "k".toList, YAML_SEQUENCE_START_EVENT,
          YAML_SCALAR_EVENT long_label, YAML_SCALAR_EVENT "y".toList,
          YAML_SEQUENCE_END_EVENT, YAML_STREAM_END_EVENT]) = none := by
  have hover : PATH_MAX ≤ (to_hash_entry
      (.mk "config".toList [.mk "k".toList [.mk long_label [.mk "y".toList []]]])
      [0, 0, 0]).1.length := by
    show PATH_MAX ≤ ("config".toList ++ ':' :: ("k".toList ++ ':' :: long_label)).length
    simp only [List.length_append, List.length_cons, long_label_length]
    omega
  refine ⟨rfl, rfl, to_hash_overrun _ _ _ hover, ?_⟩
  exact load_config_overrun _ _ [] _ rfl
    ⟨_, List.mem_map.2 ⟨[0, 0, 0], List.mem_singleton.2 rfl, rfl⟩, hover⟩

end IpcamConfig
